import Mathlib

set_option linter.unusedSectionVars false

/-!
Shallow embedding of the search algorithms of `boost/algorithm/search.hpp`
(Boyer-Moore, Boyer-Moore-Horspool, Knuth-Morris-Pratt) and of the hex codec
of `boost/algorithm/hex.hpp`, together with proofs of the specification claims.

Sequences are modelled as `List`s, iterators as natural-number indices,
`std::size_t` as `Nat`, `int` as `Int`.  Reads of pattern and corpus symbols
go through the `Option`-valued indexing `l[i]?`, and an out-of-bounds read
aborts the whole search with `none`; the bounded `while` loops of the source
are modelled with an explicit fuel argument whose exhaustion also yields the
`none` (for search loops) or identity (for table-construction loops) result.
The proofs show these abort branches are unreachable.
-/

namespace BoostAlgo

variable {α : Type} [DecidableEq α] [Inhabited α]

/-! ## Skip table, map strategy (`detail::skip_table<value_type, false>`)

`std::tr1::unordered_map<value_type,int>` is modelled as an association list
with distinct keys; `insert` overwrites (`skip_[key] = val`), `find` returns
the stored value or the construction-time default. -/

structure SkipTableMap (α : Type) where
  dflt : Int
  entries : List (α × Int)

/-- Constructor `skip_table ( patSize, default_value )`: empty map, stored default. -/
def SkipTableMap.empty (d : Int) : SkipTableMap α := ⟨d, []⟩

/-- Operation `insert ( key, val )`: `skip_ [ key ] = val` — overwrite semantics. -/
def SkipTableMap.insert (t : SkipTableMap α) (key : α) (v : Int) : SkipTableMap α :=
  ⟨t.dflt, (key, v) :: t.entries.filter (fun e => !(e.1 == key))⟩

/-- Lookup `operator [] ( val )`: the stored value, or the default when absent. -/
def SkipTableMap.find (t : SkipTableMap α) (key : α) : Int :=
  match t.entries.lookup key with
  | some v => v
  | none => t.dflt

/-- The set of keys of the table (observable domain). -/
def SkipTableMap.keys (t : SkipTableMap α) : List α := t.entries.map (·.1)

/-! ## Skip table, dense-array strategy (`detail::skip_table<value_type, true>`)

For a 1-byte integral `value_type` the table is a `boost::array<int, 256>`
indexed by the symbol's unsigned representation, modelled as `Fin 256`. -/

/-- Constructor `skip_table ( patSize, default_value )`: `std::fill_n` with the default. -/
def skipArrayInit (d : Int) : List Int := List.replicate 256 d

/-- Operation `insert ( key, val )`: `skip_ [ unsigned(key) ] = val`. -/
def skipArrayInsert (a : List Int) (key : Fin 256) (v : Int) : List Int :=
  a.set key.val v

/-- Lookup `operator [] ( val )`: `skip_ [ unsigned(val) ]`. -/
def skipArrayFind (a : List Int) (key : Fin 256) : Int := a.getD key.val 0

/-! ## Boyer-Moore tables -/

/-- Function `build_bm_tables`, skip-table part: `for i, iter: skip_.insert ( *iter, i )`
with construction default `-1`. -/
def buildBmSkip (pat : List α) : SkipTableMap α :=
  pat.enum.foldl (fun t ic => t.insert ic.2 (ic.1 : Int)) (SkipTableMap.empty (-1))

/-- Inner `while` of `compute_bm_prefix`:
`while ( k > 0 && pat_first[k] != pat_first[i] ) k = prefix [ k - 1 ];`.
`fuel` bounds the iteration count; it is chosen large enough that the bound
is never hit (each step strictly decreases `k`). -/
def bmPrefChain (pat : List α) (pre : List Nat) (c : α) : Nat → Nat → Nat
  | 0, k => k
  | fuel+1, k =>
    if 0 < k ∧ pat.getD k default ≠ c then bmPrefChain pat pre c fuel (pre.getD (k-1) 0)
    else k

/-- Function `compute_bm_prefix ( pat_first, pat_last, prefix )`: the KMP-style
prefix function of the pattern; `prefix[0] = 0`, then for `i = 1 .. count-1`
run the inner `while`, conditionally increment `k`, store `prefix[i] = k`. -/
def computeBmPref (pat : List α) : List Nat :=
  let count := pat.length
  ((List.range' 1 (count - 1)).foldl
    (fun (st : List Nat × Nat) i =>
      let k1 := bmPrefChain pat st.1 (pat.getD i default) count st.2
      let k2 := if pat.getD k1 default = pat.getD i default then k1 + 1 else k1
      (st.1.set i k2, k2))
    (List.replicate count 0, 0)).1

/-- Function `create_suffix_table`: good-suffix table of length `count + 1`, built from
the prefix functions of the pattern and of the reversed pattern.  For the empty
pattern the zero-initialised `std::vector<std::size_t> suffix_(1)` is kept. -/
def createSuffixTable (pat : List α) : List Nat :=
  let count := pat.length
  if count = 0 then List.replicate (count + 1) 0
  else
    let pre := computeBmPref pat
    let preRev := computeBmPref pat.reverse
    let base := count - pre.getD (count - 1) 0
    (List.range count).foldl
      (fun suf i =>
        let j := count - preRev.getD i 0
        let k := i - preRev.getD i 0 + 1
        if suf.getD j 0 > k then suf.set j k else suf)
      (List.replicate (count + 1) base)

/-- One refinement step of `create_suffix_table`, named for the proofs. -/
def sufStep (count : Nat) (preRev : List Nat) (suf : List Nat) (i : Nat) : List Nat :=
  let j := count - preRev.getD i 0
  let k := i - preRev.getD i 0 + 1
  if suf.getD j 0 > k then suf.set j k else suf

/-- The generic pattern-scan that builds a bad-character table: the symbol at
index `i` gets value `v i`, later indices win. -/
def skipBuild (v : Nat → Int) (d : Int) (L : List α) : SkipTableMap α :=
  (L.enum).foldl (fun t ic => t.insert ic.2 (v ic.1)) (SkipTableMap.empty d)

/-! ## Boyer-Moore search -/

/-- Inner match loop of `boyer_moore::do_search`:
`j = k_pattern_length; while ( pat_first [j-1] == curPos [j-1] ) { j--; if (j == 0) return curPos; }`.
Result `some 0` means a full match at `pos`; `some j` with `j ≥ 1` means the
loop exited with a mismatch at pattern index `j - 1`; `none` means an
out-of-bounds read. -/
def bmInner (pat corpus : List α) (pos : Nat) : Nat → Option Nat
  | 0 => some 0
  | j+1 =>
    match pat[j]?, corpus[pos + j]? with
    | some a, some b => if a = b then bmInner pat corpus pos j else some (j+1)
    | _, _ => none

/-- Outer loop of `boyer_moore::do_search`: advance `curPos` by the larger of
the bad-character shift `m = j - k - 1` (when `k < j && m > suffix_[j]`) and
the good-suffix shift `suffix_[j]`. -/
def bmLoop (pat corpus : List α) (skip : SkipTableMap α) (suffix : List Nat)
    (lastPos : Nat) : Nat → Nat → Option Nat
  | 0, _ => none
  | fuel+1, curPos =>
    if curPos ≤ lastPos then
      match bmInner pat corpus curPos pat.length with
      | none => none
      | some 0 => some curPos
      | some (j+1) =>
        match corpus[curPos + j]? with
        | none => none
        | some c =>
          let k := skip.find c
          let ms : Int := (((j+1 : Nat)) : Int) - k - 1
          if k < ((j+1 : Nat) : Int) ∧ (suffix.getD (j+1) 0 : Int) < ms then
            bmLoop pat corpus skip suffix lastPos fuel (curPos + ms.toNat)
          else
            bmLoop pat corpus skip suffix lastPos fuel (curPos + suffix.getD (j+1) 0)
    else some corpus.length

/-- Search `boyer_moore::operator ()` composed with the constructor: guards for the
empty corpus, the empty pattern and a pattern longer than the corpus, then
`do_search`.  Positions are corpus indices; `corpus.length` is the
one-past-the-end not-found sentinel. -/
def bmSearch (pat corpus : List α) : Option Nat :=
  if corpus.length = 0 then some corpus.length
  else if pat.length = 0 then some 0
  else if corpus.length < pat.length then some corpus.length
  else bmLoop pat corpus (buildBmSkip pat) (createSuffixTable pat)
    (corpus.length - pat.length) (corpus.length + 1) 0

/-! ## Boyer-Moore-Horspool -/

/-- Constructor skip table of `boyer_moore_horspool`: default `k_pattern_length`,
`insert ( pat[i], k_pattern_length - 1 - i )` for `i = 0 .. m-2`. -/
def buildHorspoolSkip (pat : List α) : SkipTableMap α :=
  ((pat.take (pat.length - 1)).enum).foldl
    (fun t ic => t.insert ic.2 ((pat.length - 1 - ic.1 : Nat) : Int))
    (SkipTableMap.empty (pat.length : Int))

/-- Inner match loop of `boyer_moore_horspool::do_search`:
`j = m - 1; while ( pat_first [j] == curPos [j] ) { if (j == 0) return curPos; j--; }`.
`some true` = full match, `some false` = mismatch, `none` = out-of-bounds. -/
def bmhInner (pat corpus : List α) (pos : Nat) : Nat → Option Bool
  | 0 =>
    match pat[0]?, corpus[pos]? with
    | some a, some b => if a = b then some true else some false
    | _, _ => none
  | j+1 =>
    match pat[j+1]?, corpus[pos + (j+1)]? with
    | some a, some b => if a = b then bmhInner pat corpus pos j else some false
    | _, _ => none

/-- Outer loop of `boyer_moore_horspool::do_search`:
`curPos += skip_ [ curPos [ k_pattern_length - 1 ]]`. -/
def bmhLoop (pat corpus : List α) (skip : SkipTableMap α) (lastPos : Nat) :
    Nat → Nat → Option Nat
  | 0, _ => none
  | fuel+1, curPos =>
    if curPos ≤ lastPos then
      match bmhInner pat corpus curPos (pat.length - 1) with
      | none => none
      | some true => some curPos
      | some false =>
        match corpus[curPos + (pat.length - 1)]? with
        | none => none
        | some c => bmhLoop pat corpus skip lastPos fuel (curPos + (skip.find c).toNat)
    else some corpus.length

/-- Search `boyer_moore_horspool::operator ()` composed with the constructor. -/
def bmhSearch (pat corpus : List α) : Option Nat :=
  if corpus.length = 0 then some corpus.length
  else if pat.length = 0 then some 0
  else if corpus.length < pat.length then some corpus.length
  else bmhLoop pat corpus (buildHorspoolSkip pat)
    (corpus.length - pat.length) (corpus.length + 1) 0

/-! ## Knuth-Morris-Pratt -/

/-- Inner `while` of `knuth_morris_pratt::init_skip_table`:
`while ( j >= 0 ) { if ( first [j] == first [i-1] ) break; j = skip_ [j]; }`. -/
def kmpChain (skip : List Int) (pat : List α) (c : α) : Nat → Int → Int
  | 0, j => j
  | fuel+1, j =>
    if 0 ≤ j then
      if pat.getD j.toNat default = c then j
      else kmpChain skip pat c fuel (skip.getD j.toNat 0)
    else j

/-- Function `knuth_morris_pratt::init_skip_table`: failure table of length
`count + 1`; `skip_[0] = -1`, and `skip_[i] = j + 1` where `j` is the result
of the inner chain started at `skip_[i-1]`. -/
def initSkipTable (pat : List α) : List Int :=
  let m := pat.length
  (List.range' 1 m).foldl
    (fun skip i =>
      let j := kmpChain skip pat (pat.getD (i-1) default) (m+1) (skip.getD (i-1) 0)
      skip.set i (j+1))
    ((List.replicate (m+1) 0).set 0 (-1))

/-- Inner match loop of `knuth_morris_pratt::do_search`:
`while ( pat_first [ idx ] == corpus_first [ match_start + idx ] ) { if ( ++idx == m ) return match_start; }`.
`some (Sum.inl ms)` = full match at `ms`; `some (Sum.inr idx)` = mismatch with
current pattern position `idx`; `none` = out-of-bounds read. -/
def kmpInner (pat corpus : List α) (ms : Nat) : Nat → Nat → Option (Nat ⊕ Nat)
  | 0, _ => none
  | fuel+1, idx =>
    match pat[idx]?, corpus[ms + idx]? with
    | some a, some b =>
      if a = b then
        if idx + 1 = pat.length then some (Sum.inl ms)
        else kmpInner pat corpus ms fuel (idx + 1)
      else some (Sum.inr idx)
    | _, _ => none

/-- Outer loop of `knuth_morris_pratt::do_search`:
`match_start += idx - skip_ [ idx ]; idx = skip_ [ idx ] >= 0 ? skip_ [ idx ] : 0;`. -/
def kmpLoop (pat corpus : List α) (skip : List Int) (lastMatch : Nat) :
    Nat → Nat → Nat → Option Nat
  | 0, _, _ => none
  | fuel+1, idx, ms =>
    if ms ≤ lastMatch then
      match kmpInner pat corpus ms (pat.length + 1) idx with
      | none => none
      | some (Sum.inl pos) => some pos
      | some (Sum.inr idx1) =>
        let s := skip.getD idx1 0
        kmpLoop pat corpus skip lastMatch fuel (if 0 ≤ s then s.toNat else 0)
          (ms + ((idx1 : Int) - s).toNat)
    else some corpus.length

/-- Search `knuth_morris_pratt::operator ()` composed with the constructor. -/
def kmpSearch (pat corpus : List α) : Option Nat :=
  if corpus.length = 0 then some corpus.length
  else if pat.length = 0 then some 0
  else if corpus.length < pat.length then some corpus.length
  else kmpLoop pat corpus (initSkipTable pat)
    (corpus.length - pat.length) (corpus.length + 1) 0 0

/-! ## Hex codec (`boost/algorithm/hex.hpp`)

The destination integral type `T` is modelled by its byte count `sz`; its
values are unbounded naturals (a decoded unit accumulates exactly
`2 * sizeof(T)` nibbles, so the C++ value never wraps). -/

/-- Exceptions `non_hex_input` and `not_enough_input`, the two subclasses of
`hex_decode_error`. -/
inductive HexError where
  | nonHexInput : HexError
  | notEnoughInput : HexError
deriving DecidableEq

/-- Function `detail::hex_char_to_int`: value of a hex digit, else the
`non_hex_input` failure. -/
def hexCharToInt (c : Char) : Except HexError Nat :=
  if '0' ≤ c ∧ c ≤ '9' then Except.ok (c.toNat - '0'.toNat)
  else if 'A' ≤ c ∧ c ≤ 'F' then Except.ok (c.toNat - 'A'.toNat + 10)
  else if 'a' ≤ c ∧ c ≤ 'f' then Except.ok (c.toNat - 'a'.toNat + 10)
  else Except.error HexError.nonHexInput

/-- Function `detail::decode_one`: the `for` loop consuming `2 * sizeof(T)`
characters; before each character it checks `first == last`
(`not_enough_input`), then shifts in the digit (`res <<= 4; res += ...`).
`numChars` counts the characters still to consume. -/
def decodeOne (numChars : Nat) (res : Nat) (input : List Char) :
    Except HexError (Nat × List Char) :=
  match numChars, input with
  | 0, rest => Except.ok (res, rest)
  | _+1, [] => Except.error HexError.notEnoughInput
  | n+1, c :: rest =>
    match hexCharToInt c with
    | Except.error e => Except.error e
    | Except.ok d => decodeOne n (res * 16 + d) rest

/-- Loop of `unhex ( first, last, out )`: `while ( first != last ) out =
decode_one ( first, last, out )`.  `fuel` bounds the iteration count; one
unit consumes at least one character when `sz ≥ 1`, so `input.length`
iterations always suffice. -/
def unhexLoop (sz : Nat) : Nat → List Char → Except HexError (List Nat)
  | _, [] => Except.ok []
  | 0, _ :: _ => Except.ok []
  | fuel+1, c :: rest =>
    match decodeOne (2 * sz) 0 (c :: rest) with
    | Except.error e => Except.error e
    | Except.ok (v, rest2) =>
      match unhexLoop sz fuel rest2 with
      | Except.error e => Except.error e
      | Except.ok vs => Except.ok (v :: vs)

/-- Function `unhex` for a destination type of `sz` bytes. -/
def unhex (sz : Nat) (input : List Char) : Except HexError (List Nat) :=
  unhexLoop sz input.length input

/-- Spec-side predicate: the characters accepted as hexadecimal digits
(0-9, A-F, a-f). -/
def IsHexDigit (c : Char) : Prop :=
  ('0' ≤ c ∧ c ≤ '9') ∨ ('A' ≤ c ∧ c ≤ 'F') ∨ ('a' ≤ c ∧ c ≤ 'f')

instance : DecidablePred IsHexDigit := fun _ =>
  inferInstanceAs (Decidable (_ ∨ _ ∨ _))

/-! ## Reference definitions (from the specification's words) -/

/-- Reference brute-force scan from the claim: the leftmost position `pos`
such that the corpus symbols at `pos .. pos + |pat| - 1` equal `pat`, or the
one-past-the-end sentinel `corpus.length` when no such position exists. -/
def naiveSearch (corpus pat : List α) : Nat :=
  match (List.range (corpus.length + 1)).find?
      (fun pos => pat.isPrefixOf (corpus.drop pos)) with
  | some pos => pos
  | none => corpus.length

/-- Predicate: `b` is the length of a proper prefix of `xs` that is also a suffix of
`xs` (a *border*). -/
def IsBorder (xs : List α) (b : Nat) : Prop :=
  b < xs.length ∧ xs.take b = xs.drop (xs.length - b)

instance (xs : List α) : DecidablePred (IsBorder xs) := fun _ =>
  inferInstanceAs (Decidable (_ ∧ _))

/-- The length of the longest proper prefix of `xs` that is also a suffix of
`xs` (the specification's failure-function value). -/
def maxBorder (xs : List α) : Nat :=
  Nat.findGreatest (IsBorder xs) (xs.length - 1)

/-- The rightmost occurrence offset of symbol `c` in `pat` (meaningful when
`c` occurs in `pat`). -/
def rightmostOcc (pat : List α) (c : α) : Nat :=
  Nat.findGreatest (fun i => pat[i]? = some c) (pat.length - 1)

/-- Pointwise match of the whole pattern at corpus position `pos`. -/
def MatchAt (pat corpus : List α) (pos : Nat) : Prop :=
  ∀ t, t < pat.length → pat[t]? = corpus[pos + t]?

/-- Shift distance `d` realigns every pattern position at or beyond
`max j d` with an equal pattern symbol `d` places earlier.  A candidate
match that starts `d` places after a window whose suffix `pat[j..]` matched
the corpus forces exactly this property. -/
def PseudoPeriod (pat : List α) (j d : Nat) : Prop :=
  ∀ ip, max j d ≤ ip → ip < pat.length → pat[ip - d]? = pat[ip]?

/-! ## Border theory -/

theorem isBorder_iff {xs : List α} {b : Nat} :
    IsBorder xs b ↔ b < xs.length ∧ ∀ s, s < b → xs[s]? = xs[xs.length - b + s]? := by
  unfold IsBorder
  constructor
  · rintro ⟨hb, heq⟩
    refine ⟨hb, fun s hs => ?_⟩
    have h1 : (xs.take b)[s]? = xs[s]? := by rw [List.getElem?_take, if_pos hs]
    have h2 : (xs.drop (xs.length - b))[s]? = xs[xs.length - b + s]? :=
      List.getElem?_drop xs (xs.length - b) s
    rw [← h1, heq, h2]
  · rintro ⟨hb, h⟩
    refine ⟨hb, List.ext_getElem? fun s => ?_⟩
    rw [List.getElem?_take, List.getElem?_drop]
    by_cases hs : s < b
    · rw [if_pos hs]; exact h s hs
    · rw [if_neg hs]
      exact (List.getElem?_eq_none (by omega)).symm

theorem isBorder_zero {xs : List α} (h : 0 < xs.length) : IsBorder xs 0 :=
  ⟨h, by simp⟩

theorem le_maxBorder {xs : List α} {b : Nat} (h : IsBorder xs b) : b ≤ maxBorder xs :=
  Nat.le_findGreatest (by have := h.1; omega) h

theorem maxBorder_isBorder {xs : List α} (h : 0 < xs.length) : IsBorder xs (maxBorder xs) :=
  Nat.findGreatest_spec (Nat.zero_le _) (isBorder_zero h)

theorem maxBorder_lt (xs : List α) (h : 0 < xs.length) : maxBorder xs < xs.length :=
  lt_of_le_of_lt (Nat.findGreatest_le _) (by omega)

theorem maxBorder_eq_zero {xs : List α}
    (h : ∀ b, 1 ≤ b → IsBorder xs b → False) : maxBorder xs = 0 :=
  Nat.findGreatest_eq_zero_iff.2 fun _ hpos _ hb => h _ hpos hb

/-- Pointwise characterisation of borders of a `take`: needed because the
algorithms look at borders of every pattern piece. -/
theorem isBorder_take_iff {p : List α} {t b : Nat} (ht : t ≤ p.length) :
    IsBorder (p.take t) b ↔ b < t ∧ ∀ s, s < b → p[s]? = p[t - b + s]? := by
  rw [isBorder_iff, List.length_take]
  have hlen : min t p.length = t := by omega
  rw [hlen]
  constructor
  · rintro ⟨hb, h⟩
    refine ⟨hb, fun s hs => ?_⟩
    have h1 := h s hs
    rwa [List.getElem?_take, if_pos (by omega), List.getElem?_take,
      if_pos (by omega)] at h1
  · rintro ⟨hb, h⟩
    refine ⟨hb, fun s hs => ?_⟩
    rw [List.getElem?_take, if_pos (by omega), List.getElem?_take, if_pos (by omega)]
    exact h s hs

/-- A shorter border nests inside a longer border. -/
theorem isBorder_take_of_isBorder {p : List α} {t b k : Nat} (ht : t ≤ p.length)
    (hk : IsBorder (p.take t) k) (hb : IsBorder (p.take t) b) (hbk : b < k) :
    IsBorder (p.take k) b := by
  rw [isBorder_take_iff ht] at hk hb
  rw [isBorder_take_iff (by omega)]
  refine ⟨hbk, fun s hs => ?_⟩
  rw [hb.2 s hs]
  have h2 := hk.2 (k - b + s) (by omega)
  rw [show t - k + (k - b + s) = t - b + s by omega] at h2
  exact h2.symm

/-- A border of a border is a border. -/
theorem isBorder_of_isBorder_take {p : List α} {t b k : Nat} (ht : t ≤ p.length)
    (hk : IsBorder (p.take t) k) (hb : IsBorder (p.take k) b) : IsBorder (p.take t) b := by
  have hkt : k < t := ((isBorder_take_iff ht).1 hk).1
  rw [isBorder_take_iff (by omega)] at hb
  rw [isBorder_take_iff ht] at hk ⊢
  refine ⟨by omega, fun s hs => ?_⟩
  rw [hb.2 s hs]
  have h2 := hk.2 (k - b + s) (by omega)
  rw [show t - k + (k - b + s) = t - b + s by omega] at h2
  exact h2

/-- Extending a border by one equal symbol. -/
theorem isBorder_take_succ {p : List α} {i b : Nat} (hi : i < p.length) :
    IsBorder (p.take (i+1)) (b+1) ↔ IsBorder (p.take i) b ∧ p[b]? = p[i]? := by
  rw [isBorder_take_iff (by omega), isBorder_take_iff (by omega)]
  constructor
  · rintro ⟨hb, h⟩
    have hbi : b < i := by omega
    refine ⟨⟨hbi, fun s hs => ?_⟩, ?_⟩
    · have h1 := h s (by omega)
      rwa [show i + 1 - (b + 1) + s = i - b + s by omega] at h1
    · have h1 := h b (by omega)
      rwa [show i + 1 - (b + 1) + b = i by omega] at h1
  · rintro ⟨⟨hbi, h⟩, hc⟩
    refine ⟨by omega, fun s hs => ?_⟩
    rcases Nat.lt_or_ge s b with hsb | hsb
    · have h1 := h s hsb
      rwa [show i - b + s = i + 1 - (b + 1) + s by omega] at h1
    · have hsb' : s = b := by omega
      subst hsb'
      rwa [show i + 1 - (s + 1) + s = i by omega]

/-- Transport of borders of a prefix of the reversed pattern: a border `b` of
`p.reverse.take t` says that the length-`b` suffix of `p` re-occurs shifted
`t - b` places to the left. -/
theorem isBorder_reverse_take_iff {p : List α} {t b : Nat} (ht : t ≤ p.length) (hbt : b < t) :
    IsBorder (p.reverse.take t) b ↔
      ∀ ip, p.length - b ≤ ip → ip < p.length → p[ip - (t - b)]? = p[ip]? := by
  rw [isBorder_take_iff (by rw [List.length_reverse]; exact ht)]
  constructor
  · rintro ⟨-, h⟩ ip hip1 hip2
    have hs : p.length - 1 - ip < b := by omega
    have h1 := h _ hs
    rw [List.getElem?_reverse (by omega), List.getElem?_reverse (by omega)] at h1
    rw [show p.length - 1 - (p.length - 1 - ip) = ip by omega] at h1
    rw [show p.length - 1 - (t - b + (p.length - 1 - ip)) = ip - (t - b) by omega] at h1
    exact h1.symm
  · intro h
    refine ⟨hbt, fun s hs => ?_⟩
    have h1 := h (p.length - 1 - s) (by omega) (by omega)
    rw [show p.length - 1 - s - (t - b) = p.length - 1 - (t - b + s) by omega] at h1
    rw [List.getElem?_reverse (by omega), List.getElem?_reverse (by omega)]
    exact h1.symm

theorem getElem?_eq_some_getD {l : List α} {idx : Nat} (h : idx < l.length) :
    l[idx]? = some (l.getD idx default) := by
  rw [List.getD_eq_getElem?_getD, List.getElem?_eq_getElem h]
  rfl

theorem maxBorder_take_lt {p : List α} {k : Nat} (h1 : 1 ≤ k) (h2 : k ≤ p.length) :
    maxBorder (p.take k) < k := by
  have h := maxBorder_lt (p.take k) (by rw [List.length_take]; omega)
  rwa [List.length_take, min_eq_left h2] at h

theorem maxBorder_take_isBorder {p : List α} {k : Nat} (h1 : 1 ≤ k) (h2 : k ≤ p.length) :
    IsBorder (p.take k) (maxBorder (p.take k)) :=
  maxBorder_isBorder (by rw [List.length_take]; omega)

/-! ## Correctness of `compute_bm_prefix` -/

/-- The inner `while` of `compute_bm_prefix` descends the border chain of
`pat.take i` and stops at the largest border whose next symbol matches
`pat[i]` (or at `0`). -/
theorem bmPrefChain_spec {pat : List α} (pre : List Nat) (i : Nat) (hi : i < pat.length)
    (HP : ∀ k, 1 ≤ k → k < i → pre.getD (k-1) 0 = maxBorder (pat.take k)) :
    ∀ k, ∀ fuel, k + 1 ≤ fuel → IsBorder (pat.take i) k →
      (∀ b, IsBorder (pat.take i) b → pat.getD b default = pat.getD i default → b ≤ k) →
      ∃ r, bmPrefChain pat pre (pat.getD i default) fuel k = r ∧
        IsBorder (pat.take i) r ∧
        (r = 0 ∨ pat.getD r default = pat.getD i default) ∧
        (∀ b, IsBorder (pat.take i) b → pat.getD b default = pat.getD i default → b ≤ r) := by
  intro k
  induction k using Nat.strong_induction_on with
  | _ k IH =>
    intro fuel hfuel hkb hkmax
    have hki : k < i := by
      have := hkb.1
      rwa [List.length_take, min_eq_left (by omega)] at this
    match fuel, hfuel with
    | f+1, _ =>
      by_cases hcond : 0 < k ∧ pat.getD k default ≠ pat.getD i default
      · have hk1 : 1 ≤ k := hcond.1
        have hstep : pre.getD (k-1) 0 = maxBorder (pat.take k) := HP k hk1 hki
        have hmlt : maxBorder (pat.take k) < k := maxBorder_take_lt hk1 (by omega)
        have hmb : IsBorder (pat.take k) (maxBorder (pat.take k)) :=
          maxBorder_take_isBorder hk1 (by omega)
        have hlift : IsBorder (pat.take i) (maxBorder (pat.take k)) :=
          isBorder_of_isBorder_take (by omega) hkb hmb
        have hmax' : ∀ b, IsBorder (pat.take i) b →
            pat.getD b default = pat.getD i default → b ≤ maxBorder (pat.take k) := by
          intro b hb hc
          have hbk : b ≤ k := hkmax b hb hc
          have hbne : b ≠ k := fun h => hcond.2 (h ▸ hc)
          exact le_maxBorder (isBorder_take_of_isBorder (by omega) hkb hb (by omega))
        obtain ⟨r, hr, h1, h2, h3⟩ :=
          IH (maxBorder (pat.take k)) hmlt f (by omega) hlift hmax'
        refine ⟨r, ?_, h1, h2, h3⟩
        rw [bmPrefChain, if_pos hcond, hstep, hr]
      · refine ⟨k, ?_, hkb, ?_, hkmax⟩
        · rw [bmPrefChain, if_neg hcond]
        · rcases Nat.eq_zero_or_pos k with h0 | hpos
          · exact Or.inl h0
          · refine Or.inr ?_
            by_contra hne
            exact hcond ⟨hpos, hne⟩

/-- Invariant of the `for` loop of `compute_bm_prefix`: after the iterations
`1 .. t` the carried `k` and the filled entries are the maximal borders. -/
theorem computeBmPref_inv (pat : List α) (hc : 1 ≤ pat.length) :
    ∀ t, t ≤ pat.length - 1 →
      ((List.range' 1 t).foldl
        (fun (st : List Nat × Nat) i =>
          let k1 := bmPrefChain pat st.1 (pat.getD i default) pat.length st.2
          let k2 := if pat.getD k1 default = pat.getD i default then k1 + 1 else k1
          (st.1.set i k2, k2))
        (List.replicate pat.length 0, 0)).1.length = pat.length ∧
      ((List.range' 1 t).foldl
        (fun (st : List Nat × Nat) i =>
          let k1 := bmPrefChain pat st.1 (pat.getD i default) pat.length st.2
          let k2 := if pat.getD k1 default = pat.getD i default then k1 + 1 else k1
          (st.1.set i k2, k2))
        (List.replicate pat.length 0, 0)).2 = maxBorder (pat.take (t+1)) ∧
      ∀ ii, ii ≤ t →
        ((List.range' 1 t).foldl
          (fun (st : List Nat × Nat) i =>
            let k1 := bmPrefChain pat st.1 (pat.getD i default) pat.length st.2
            let k2 := if pat.getD k1 default = pat.getD i default then k1 + 1 else k1
            (st.1.set i k2, k2))
          (List.replicate pat.length 0, 0)).1.getD ii 0 = maxBorder (pat.take (ii+1)) := by
  intro t
  induction t with
  | zero =>
    intro _
    have hmb1 : maxBorder (pat.take 1) = 0 := by
      have hl : (pat.take 1).length = 1 := by rw [List.length_take]; omega
      rw [maxBorder, hl]
      rfl
    refine ⟨by simp, ?_, ?_⟩
    · simpa using hmb1.symm
    · intro ii hii
      interval_cases ii
      simp only [List.range'_zero, List.foldl_nil]
      rw [List.getD_eq_getElem?_getD, List.getElem?_replicate, if_pos (by omega)]
      simpa using hmb1.symm
  | succ t IHt =>
    intro ht
    obtain ⟨IH1, IH2, IH3⟩ := IHt (by omega)
    set stepFn := (fun (st : List Nat × Nat) i =>
          let k1 := bmPrefChain pat st.1 (pat.getD i default) pat.length st.2
          let k2 := if pat.getD k1 default = pat.getD i default then k1 + 1 else k1
          (st.1.set i k2, k2)) with hstepFn
    set prev := (List.range' 1 t).foldl stepFn (List.replicate pat.length 0, 0) with hprev
    have hconcat : (List.range' 1 (t+1)).foldl stepFn (List.replicate pat.length 0, 0) =
        stepFn prev (1 + t) := by
      rw [List.range'_concat, List.foldl_append]
      simp
    have hi : 1 + t < pat.length := by omega
    have hi2 : t + 1 < pat.length := by omega
    have hi' : (1 + t : Nat) = t + 1 := by omega
    -- the chain run at i = t+1
    have HP : ∀ k, 1 ≤ k → k < t + 1 → prev.1.getD (k-1) 0 = maxBorder (pat.take k) := by
      intro k h1 h2
      have := IH3 (k-1) (by omega)
      rwa [show k - 1 + 1 = k by omega] at this
    have hkb : IsBorder (pat.take (t+1)) (maxBorder (pat.take (t+1))) :=
      maxBorder_take_isBorder (by omega) (by omega)
    have hkmax : ∀ b, IsBorder (pat.take (t+1)) b →
        pat.getD b default = pat.getD (t+1) default → b ≤ maxBorder (pat.take (t+1)) :=
      fun b hb _ => le_maxBorder hb
    have hfuel : maxBorder (pat.take (t+1)) + 1 ≤ pat.length := by
      have := maxBorder_take_lt (p := pat) (k := t+1) (by omega) (by omega)
      omega
    obtain ⟨r, hr, hrb, hrc, hrmax⟩ :=
      bmPrefChain_spec prev.1 (t+1) (by omega) HP
        (maxBorder (pat.take (t+1))) pat.length hfuel hkb hkmax
    rw [← IH2] at hr
    have hri : r < t + 1 := by
      have := hrb.1
      rwa [List.length_take, min_eq_left (by omega)] at this
    -- value stored at position t+1
    have hval : (if pat.getD r default = pat.getD (t+1) default then r + 1 else r) =
        maxBorder (pat.take (t+2)) := by
      by_cases hchar : pat.getD r default = pat.getD (t+1) default
      · rw [if_pos hchar]
        have hext : IsBorder (pat.take (t+1+1)) (r+1) := by
          rw [isBorder_take_succ hi2]
          exact ⟨hrb, by
            rw [getElem?_eq_some_getD (by omega), getElem?_eq_some_getD (by omega), hchar]⟩
        refine le_antisymm (le_maxBorder hext) ?_
        have hmb : IsBorder (pat.take (t+2)) (maxBorder (pat.take (t+2))) :=
          maxBorder_take_isBorder (by omega) (by omega)
        rcases Nat.eq_zero_or_pos (maxBorder (pat.take (t+2))) with h0 | hpos
        · omega
        · obtain ⟨B, hB⟩ : ∃ B, maxBorder (pat.take (t+2)) = B + 1 :=
            ⟨maxBorder (pat.take (t+2)) - 1, by omega⟩
          rw [hB] at hmb
          rw [show (t+2 : Nat) = (t+1)+1 by omega] at hmb
          rw [isBorder_take_succ hi2] at hmb
          obtain ⟨hBb, hBc⟩ := hmb
          have hBlt : B < t + 1 := by
            have := hBb.1
            rwa [List.length_take, min_eq_left (by omega)] at this
          have hBc' : pat.getD B default = pat.getD (t+1) default := by
            rw [getElem?_eq_some_getD (by omega), getElem?_eq_some_getD (by omega)] at hBc
            exact Option.some_injective _ hBc
          have := hrmax B hBb hBc'
          omega
      · rw [if_neg hchar]
        have hr0 : r = 0 := by
          rcases hrc with h0 | hc
          · exact h0
          · exact absurd hc hchar
        subst hr0
        refine (maxBorder_eq_zero ?_).symm
        intro B hB1 hBb
        obtain ⟨b, rfl⟩ : ∃ b, B = b + 1 := ⟨B - 1, by omega⟩
        rw [show (t+2 : Nat) = (t+1)+1 by omega, isBorder_take_succ hi2] at hBb
        obtain ⟨hbb, hbc⟩ := hBb
        have hblt : b < t + 1 := by
          have := hbb.1
          rwa [List.length_take, min_eq_left (by omega)] at this
        have hbc' : pat.getD b default = pat.getD (t+1) default := by
          rw [getElem?_eq_some_getD (by omega), getElem?_eq_some_getD (by omega)] at hbc
          exact Option.some_injective _ hbc
        have hb0 := hrmax b hbb hbc'
        have hbz : b = 0 := by omega
        subst hbz
        exact hchar hbc'
    rw [hconcat]
    simp only [hstepFn, hi']
    rw [hr, hval]
    refine ⟨by rw [List.length_set]; exact IH1, rfl, ?_⟩
    intro ii hii
    rw [List.getD_eq_getElem?_getD, List.getElem?_set]
    by_cases hiieq : t + 1 = ii
    · subst hiieq
      rw [if_pos rfl, IH1, if_pos (by omega)]
      simp [show t + 1 + 1 = t + 2 by omega]
    · rw [if_neg hiieq, ← List.getD_eq_getElem?_getD]
      exact IH3 ii (by omega)

/-- Correctness of `compute_bm_prefix`: entry `ii` is the maximal border
length of the pattern piece of length `ii + 1`. -/
theorem computeBmPref_getD (pat : List α) (ii : Nat) (hii : ii < pat.length) :
    (computeBmPref pat).getD ii 0 = maxBorder (pat.take (ii+1)) := by
  have hc : 1 ≤ pat.length := by omega
  obtain ⟨-, -, h3⟩ := computeBmPref_inv pat hc (pat.length - 1) le_rfl
  have := h3 ii (by omega)
  simpa [computeBmPref] using this

/-! ## Correctness of `init_skip_table` (KMP failure table) -/

/-- The inner `while` of `init_skip_table` descends the border chain of
`pat.take (i-1)`, stopping at the largest border whose following symbol
matches `pat[i-1]`, or at `-1` when there is none. -/
theorem kmpChain_spec {pat : List α} {skip : List Int} {i : Nat}
    (hi1 : 1 ≤ i) (hi2 : i ≤ pat.length)
    (H0 : skip.getD 0 0 = -1)
    (HP : ∀ k, 1 ≤ k → k < i → skip.getD k 0 = (maxBorder (pat.take k) : Int)) :
    ∀ n : Nat, ∀ j : Int, (j + 1).toNat ≤ n → ∀ fuel, n + 1 ≤ fuel →
      (j = -1 ∨ (0 ≤ j ∧ IsBorder (pat.take (i-1)) j.toNat)) →
      (∀ b : Nat, IsBorder (pat.take (i-1)) b →
        pat.getD b default = pat.getD (i-1) default → (b : Int) ≤ j) →
      ∃ r : Int, kmpChain skip pat (pat.getD (i-1) default) fuel j = r ∧
        (r = -1 ∨ (0 ≤ r ∧ IsBorder (pat.take (i-1)) r.toNat ∧
          pat.getD r.toNat default = pat.getD (i-1) default)) ∧
        (∀ b : Nat, IsBorder (pat.take (i-1)) b →
          pat.getD b default = pat.getD (i-1) default → (b : Int) ≤ r) := by
  intro n
  induction n using Nat.strong_induction_on with
  | _ n IH =>
    intro j hjn fuel hfuel hinv hmax
    match fuel, hfuel with
    | f+1, hfuel =>
      by_cases hj0 : 0 ≤ j
      · rcases hinv with hneg | ⟨-, hjb⟩
        · omega
        by_cases hchar : pat.getD j.toNat default = pat.getD (i-1) default
        · refine ⟨j, ?_, Or.inr ⟨hj0, hjb, hchar⟩, hmax⟩
          simp only [kmpChain, if_pos hj0, if_pos hchar]
        · have hjtn_lt : j.toNat < i - 1 := by
            have h := hjb.1
            rwa [List.length_take, min_eq_left (by omega)] at h
          rcases Nat.eq_zero_or_pos j.toNat with hz | hpos
          · -- current candidate is the empty border; the chain falls to -1
            have hj' : skip.getD j.toNat 0 = -1 := by rw [hz]; exact H0
            have hmax' : ∀ b : Nat, IsBorder (pat.take (i-1)) b →
                pat.getD b default = pat.getD (i-1) default → (b : Int) ≤ -1 := by
              intro b hb hc
              exfalso
              have hbj := hmax b hb hc
              have hb0 : b = 0 := by omega
              subst hb0
              rw [← hz] at hc
              exact hchar hc
            obtain ⟨r, hr, h1, h2⟩ :=
              IH 0 (by omega) (-1) (by simp) f (by omega) (Or.inl rfl) hmax'
            refine ⟨r, ?_, h1, h2⟩
            simp only [kmpChain, if_pos hj0, if_neg hchar, hj', hr]
          · have hj' : skip.getD j.toNat 0 = (maxBorder (pat.take j.toNat) : Int) :=
              HP j.toNat hpos (by omega)
            have hmlt : maxBorder (pat.take j.toNat) < j.toNat :=
              maxBorder_take_lt hpos (by omega)
            have hmb : IsBorder (pat.take j.toNat) (maxBorder (pat.take j.toNat)) :=
              maxBorder_take_isBorder hpos (by omega)
            have hlift : IsBorder (pat.take (i-1)) (maxBorder (pat.take j.toNat)) :=
              isBorder_of_isBorder_take (by omega) hjb hmb
            have hmax' : ∀ b : Nat, IsBorder (pat.take (i-1)) b →
                pat.getD b default = pat.getD (i-1) default →
                (b : Int) ≤ (maxBorder (pat.take j.toNat) : Int) := by
              intro b hb hc
              have hbj := hmax b hb hc
              have hbne : b ≠ j.toNat := fun h => hchar (h ▸ hc)
              have hblt : b < j.toNat := by omega
              have := le_maxBorder (isBorder_take_of_isBorder (by omega) hjb hb hblt)
              omega
            obtain ⟨r, hr, h1, h2⟩ :=
              IH (maxBorder (pat.take j.toNat) + 1) (by omega)
                ((maxBorder (pat.take j.toNat) : Int)) (by simp) f (by omega)
                (Or.inr ⟨by omega, by simpa using hlift⟩) hmax'
            refine ⟨r, ?_, h1, h2⟩
            simp only [kmpChain, if_pos hj0, if_neg hchar, hj', hr]
      · rcases hinv with hneg | ⟨hge, -⟩
        · refine ⟨j, ?_, Or.inl hneg, hmax⟩
          simp only [kmpChain, if_neg hj0]
        · exact absurd hge hj0

/-- Invariant of the `for` loop of `init_skip_table`. -/
theorem initSkipTable_inv (pat : List α) :
    ∀ t, t ≤ pat.length →
      ((List.range' 1 t).foldl
        (fun skip i =>
          let j := kmpChain skip pat (pat.getD (i-1) default) (pat.length+1)
            (skip.getD (i-1) 0)
          skip.set i (j+1))
        ((List.replicate (pat.length+1) 0).set 0 (-1))).length = pat.length + 1 ∧
      ((List.range' 1 t).foldl
        (fun skip i =>
          let j := kmpChain skip pat (pat.getD (i-1) default) (pat.length+1)
            (skip.getD (i-1) 0)
          skip.set i (j+1))
        ((List.replicate (pat.length+1) 0).set 0 (-1))).getD 0 0 = -1 ∧
      ∀ ii, 1 ≤ ii → ii ≤ t →
        ((List.range' 1 t).foldl
          (fun skip i =>
            let j := kmpChain skip pat (pat.getD (i-1) default) (pat.length+1)
              (skip.getD (i-1) 0)
            skip.set i (j+1))
          ((List.replicate (pat.length+1) 0).set 0 (-1))).getD ii 0 =
          (maxBorder (pat.take ii) : Int) := by
  intro t
  induction t with
  | zero =>
    intro _
    refine ⟨by simp, ?_, ?_⟩
    · rw [List.range'_zero, List.foldl_nil, List.getD_eq_getElem?_getD, List.getElem?_set]
      rw [if_pos rfl, List.length_replicate, if_pos (by omega)]
      rfl
    · intro ii h1 h2
      omega
  | succ t IHt =>
    intro ht
    obtain ⟨IH1, IH2, IH3⟩ := IHt (by omega)
    set stepFn := (fun (skip : List Int) i =>
          let j := kmpChain skip pat (pat.getD (i-1) default) (pat.length+1)
            (skip.getD (i-1) 0)
          skip.set i (j+1)) with hstepFn
    set prev := (List.range' 1 t).foldl stepFn
      ((List.replicate (pat.length+1) 0).set 0 (-1)) with hprev
    have hconcat : (List.range' 1 (t+1)).foldl stepFn
        ((List.replicate (pat.length+1) 0).set 0 (-1)) = stepFn prev (1 + t) := by
      rw [List.range'_concat, List.foldl_append]
      simp
    have hi1 : 1 ≤ t + 1 := by omega
    have hi2 : t + 1 ≤ pat.length := by omega
    have HP : ∀ k, 1 ≤ k → k < t + 1 → prev.getD k 0 = (maxBorder (pat.take k) : Int) :=
      fun k h1 h2 => IH3 k h1 (by omega)
    -- set up starting value of the chain
    have hstart : ∃ j0 : Int, prev.getD t 0 = j0 ∧ (j0 + 1).toNat ≤ pat.length ∧
        (j0 = -1 ∨ (0 ≤ j0 ∧ IsBorder (pat.take (t+1-1)) j0.toNat)) ∧
        (∀ b : Nat, IsBorder (pat.take (t+1-1)) b →
          pat.getD b default = pat.getD (t+1-1) default → (b : Int) ≤ j0) := by
      rcases Nat.eq_zero_or_pos t with hz | hpos
      · subst hz
        refine ⟨-1, IH2, by simp, Or.inl rfl, ?_⟩
        intro b hb _
        exfalso
        have := hb.1
        simp at this
      · refine ⟨(maxBorder (pat.take t) : Int), HP t hpos (by omega), ?_, ?_, ?_⟩
        · have := maxBorder_take_lt (p := pat) hpos (by omega)
          omega
        · refine Or.inr ⟨by omega, ?_⟩
          simpa using maxBorder_take_isBorder (p := pat) hpos (by omega)
        · intro b hb _
          have := le_maxBorder (by simpa using hb)
          omega
    obtain ⟨j0, hj0, hj0m, hj0inv, hj0max⟩ := hstart
    obtain ⟨r, hr, hrp, hrmax⟩ :=
      kmpChain_spec hi1 hi2 IH2 HP pat.length j0 hj0m (pat.length + 1) (by omega)
        hj0inv hj0max
    -- the stored value is the maximal border of `pat.take (t+1)`
    have hval : r + 1 = (maxBorder (pat.take (t+1)) : Int) := by
      have hi1' : t + 1 - 1 = t := by omega
      have hilen : t < pat.length := by omega
      rcases hrp with hneg | ⟨hge, hbord, hchar⟩
      · subst hneg
        have : maxBorder (pat.take (t+1)) = 0 := by
          apply maxBorder_eq_zero
          intro B hB1 hBb
          obtain ⟨b, rfl⟩ : ∃ b, B = b + 1 := ⟨B - 1, by omega⟩
          rw [show (t+1 : Nat) = t+1 from rfl, isBorder_take_succ hilen] at hBb
          obtain ⟨hbb, hbc⟩ := hBb
          have hblt : b < t := by
            have := hbb.1
            rwa [List.length_take, min_eq_left (by omega)] at this
          have hbc' : pat.getD b default = pat.getD t default := by
            rw [getElem?_eq_some_getD (by omega), getElem?_eq_some_getD (by omega)] at hbc
            exact Option.some_injective _ hbc
          have := hrmax b (by rwa [hi1']) (by rwa [hi1'])
          omega
        rw [this]
        rfl
      · rw [hi1'] at hbord hchar
        have hrtn : r = (r.toNat : Int) := by omega
        have hrlt : r.toNat < t := by
          have := hbord.1
          rwa [List.length_take, min_eq_left (by omega)] at this
        have hext : IsBorder (pat.take (t+1)) (r.toNat + 1) := by
          rw [isBorder_take_succ hilen]
          exact ⟨hbord, by
            rw [getElem?_eq_some_getD (by omega), getElem?_eq_some_getD (by omega), hchar]⟩
        have hle : r.toNat + 1 ≤ maxBorder (pat.take (t+1)) := le_maxBorder hext
        have hge2 : maxBorder (pat.take (t+1)) ≤ r.toNat + 1 := by
          have hmb : IsBorder (pat.take (t+1)) (maxBorder (pat.take (t+1))) :=
            maxBorder_take_isBorder (by omega) (by omega)
          obtain ⟨B, hB⟩ : ∃ B, maxBorder (pat.take (t+1)) = B + 1 :=
            ⟨maxBorder (pat.take (t+1)) - 1, by omega⟩
          rw [hB] at hmb ⊢
          rw [isBorder_take_succ hilen] at hmb
          obtain ⟨hBb, hBc⟩ := hmb
          have hBlt : B < t := by
            have := hBb.1
            rwa [List.length_take, min_eq_left (by omega)] at this
          have hBc' : pat.getD B default = pat.getD t default := by
            rw [getElem?_eq_some_getD (by omega), getElem?_eq_some_getD (by omega)] at hBc
            exact Option.some_injective _ hBc
          have := hrmax B (by rwa [hi1']) (by rwa [hi1'])
          omega
        omega
    rw [hconcat]
    simp only [hstepFn]
    rw [show (t + 1 - 1 : Nat) = t by omega] at hr
    rw [show (1 + t - 1 : Nat) = t by omega, show (1 + t : Nat) = t + 1 by omega, hj0, hr, hval]
    refine ⟨by rw [List.length_set]; exact IH1, ?_, ?_⟩
    · rw [List.getD_eq_getElem?_getD, List.getElem?_set, if_neg (by omega),
        ← List.getD_eq_getElem?_getD]
      exact IH2
    · intro ii h1 h2
      rw [List.getD_eq_getElem?_getD, List.getElem?_set]
      by_cases hiieq : t + 1 = ii
      · subst hiieq
        rw [if_pos rfl, IH1, if_pos (by omega)]
        rfl
      · rw [if_neg hiieq, ← List.getD_eq_getElem?_getD]
        exact IH3 ii h1 (by omega)

/-- Correctness facts for the KMP failure table: length, sentinel, and the
maximal-border value of every other entry. -/
theorem initSkipTable_facts (pat : List α) :
    (initSkipTable pat).length = pat.length + 1 ∧
    (initSkipTable pat).getD 0 0 = -1 ∧
    ∀ i, 1 ≤ i → i ≤ pat.length →
      (initSkipTable pat).getD i 0 = (maxBorder (pat.take i) : Int) := by
  obtain ⟨h1, h2, h3⟩ := initSkipTable_inv pat pat.length le_rfl
  exact ⟨by simpa [initSkipTable] using h1, by simpa [initSkipTable] using h2,
    fun i hi1 hi2 => by simpa [initSkipTable] using h3 i hi1 hi2⟩

/-! ## Properties of the good-suffix table -/

theorem createSuffixTable_eq (pat : List α) (h : ¬ pat.length = 0) :
    createSuffixTable pat = (List.range pat.length).foldl
      (sufStep pat.length (computeBmPref pat.reverse))
      (List.replicate (pat.length + 1)
        (pat.length - (computeBmPref pat).getD (pat.length - 1) 0)) := by
  simp only [createSuffixTable, if_neg h]
  rfl

theorem sufStep_getD_le (count : Nat) (preRev : List Nat) (suf : List Nat) (i s : Nat) :
    (sufStep count preRev suf i).getD s 0 ≤ suf.getD s 0 := by
  unfold sufStep
  by_cases hc : suf.getD (count - preRev.getD i 0) 0 > i - preRev.getD i 0 + 1
  · rw [if_pos hc]
    rw [List.getD_eq_getElem?_getD, List.getElem?_set]
    by_cases he : count - preRev.getD i 0 = s
    · rw [if_pos he]
      by_cases hl : count - preRev.getD i 0 < suf.length
      · rw [if_pos hl]
        subst he
        simp only [Option.getD_some]
        omega
      · rw [if_neg hl]
        simp
    · rw [if_neg he, ← List.getD_eq_getElem?_getD]
  · rw [if_neg hc]

theorem sufFold_getD_le (count : Nat) (preRev : List Nat) :
    ∀ (L : List Nat) (suf : List Nat) (s : Nat),
      (L.foldl (sufStep count preRev) suf).getD s 0 ≤ suf.getD s 0 := by
  intro L
  induction L with
  | nil => intro suf s; exact le_rfl
  | cons i L IH =>
    intro suf s
    calc (List.foldl (sufStep count preRev) (sufStep count preRev suf i) L).getD s 0
        ≤ (sufStep count preRev suf i).getD s 0 := IH _ s
      _ ≤ suf.getD s 0 := sufStep_getD_le ..

theorem sufFold_mem_le (count : Nat) (preRev : List Nat) :
    ∀ (L : List Nat) (suf : List Nat) (i : Nat), i ∈ L →
      (L.foldl (sufStep count preRev) suf).getD (count - preRev.getD i 0) 0 ≤
        i - preRev.getD i 0 + 1 := by
  intro L
  induction L with
  | nil => intro suf i h; cases h
  | cons hd L IH =>
    intro suf i hmem
    rcases List.mem_cons.1 hmem with heq | htl
    · subst heq
      rw [List.foldl_cons]
      refine le_trans (sufFold_getD_le count preRev L (sufStep count preRev suf i) _) ?_
      unfold sufStep
      by_cases hc : suf.getD (count - preRev.getD i 0) 0 > i - preRev.getD i 0 + 1
      · rw [if_pos hc, List.getD_eq_getElem?_getD, List.getElem?_set, if_pos rfl]
        by_cases hl : count - preRev.getD i 0 < suf.length
        · rw [if_pos hl]
          simp
        · rw [if_neg hl]
          simp
      · rw [if_neg hc]
        omega
    · rw [List.foldl_cons]
      exact IH _ i htl

theorem sufFold_pos (count : Nat) (preRev : List Nat) :
    ∀ (L : List Nat) (suf : List Nat), (∀ s, s < suf.length → 1 ≤ suf.getD s 0) →
      ∀ s, s < (L.foldl (sufStep count preRev) suf).length →
        1 ≤ (L.foldl (sufStep count preRev) suf).getD s 0 := by
  intro L
  induction L with
  | nil => intro suf h s hs; exact h s hs
  | cons hd L IH =>
    intro suf h s hs
    rw [List.foldl_cons] at hs ⊢
    refine IH _ ?_ s hs
    intro s' hs'
    unfold sufStep at hs' ⊢
    by_cases hc : suf.getD (count - preRev.getD hd 0) 0 > hd - preRev.getD hd 0 + 1
    · rw [if_pos hc] at hs' ⊢
      rw [List.length_set] at hs'
      rw [List.getD_eq_getElem?_getD, List.getElem?_set]
      by_cases he : count - preRev.getD hd 0 = s'
      · rw [if_pos he, if_pos (by omega)]
        simp only [Option.getD_some]
        omega
      · rw [if_neg he, ← List.getD_eq_getElem?_getD]
        exact h s' hs'
    · rw [if_neg hc] at hs' ⊢
      exact h s' hs'

theorem sufFold_length (count : Nat) (preRev : List Nat) :
    ∀ (L : List Nat) (suf : List Nat),
      (L.foldl (sufStep count preRev) suf).length = suf.length := by
  intro L
  induction L with
  | nil => intro suf; rfl
  | cons hd L IH =>
    intro suf
    rw [List.foldl_cons, IH]
    unfold sufStep
    by_cases hc : suf.getD (count - preRev.getD hd 0) 0 > hd - preRev.getD hd 0 + 1
    · rw [if_pos hc, List.length_set]
    · rw [if_neg hc]

theorem createSuffixTable_length (pat : List α) :
    (createSuffixTable pat).length = pat.length + 1 := by
  by_cases h : pat.length = 0
  · simp [createSuffixTable, h]
  · rw [createSuffixTable_eq pat h, sufFold_length, List.length_replicate]

/-- Every good-suffix table entry is positive: each mismatch makes progress. -/
theorem createSuffixTable_pos (pat : List α) (hm : 1 ≤ pat.length) :
    ∀ s, s ≤ pat.length → 1 ≤ (createSuffixTable pat).getD s 0 := by
  intro s hs
  rw [createSuffixTable_eq pat (by omega)]
  apply sufFold_pos
  · intro s' hs'
    rw [List.getD_eq_getElem?_getD, List.getElem?_replicate,
      if_pos (by rwa [List.length_replicate] at hs')]
    simp only [Option.getD_some]
    have hpref : (computeBmPref pat).getD (pat.length - 1) 0 =
        maxBorder (pat.take pat.length) := by
      rw [computeBmPref_getD pat (pat.length - 1) (by omega),
        show pat.length - 1 + 1 = pat.length by omega]
    rw [hpref, List.take_length]
    have := maxBorder_lt pat (by omega)
    omega
  · rw [sufFold_length, List.length_replicate]
    omega

/-- Safety of the good-suffix table: whenever `d ≥ 1` realigns the matched
suffix `pat[j..]` consistently (a pseudo-period of slot `j`), the stored
shift is at most `d` — so the search never skips over a viable alignment. -/
theorem createSuffixTable_safe (pat : List α) {j d : Nat}
    (hj1 : 1 ≤ j) (hj2 : j ≤ pat.length) (hd : 1 ≤ d)
    (hpp : PseudoPeriod pat j d) :
    (createSuffixTable pat).getD j 0 ≤ d := by
  have hm : 1 ≤ pat.length := by omega
  rw [createSuffixTable_eq pat (by omega)]
  have hbase : ∀ s, ((List.replicate (pat.length + 1)
      (pat.length - (computeBmPref pat).getD (pat.length - 1) 0)) : List Nat).getD s 0 ≤
        pat.length - (computeBmPref pat).getD (pat.length - 1) 0 := by
    intro s
    rw [List.getD_eq_getElem?_getD, List.getElem?_replicate]
    by_cases hs : s < pat.length + 1
    · rw [if_pos hs]; rfl
    · rw [if_neg hs]; simp
  rcases Nat.lt_or_ge d j with hdj | hjd
  · -- the interesting case: `d < j`, handled by the refinement loop
    have hrlen : pat.reverse.length = pat.length := List.length_reverse pat
    have hl' : pat.length - j + d < pat.length := by omega
    -- the length-(pat.length - j) suffix re-occurs in the window of length
    -- (pat.length - j) + d, because d is a pseudo-period of slot j
    have hQex : ∃ t, pat.length - j + 1 ≤ t ∧ t ≤ pat.length - j + d ∧
        IsBorder (pat.reverse.take t) (pat.length - j) := by
      refine ⟨pat.length - j + d, by omega, le_rfl, ?_⟩
      rw [isBorder_reverse_take_iff (by omega) (by omega)]
      intro ip hip1 hip2
      rw [show pat.length - j + d - (pat.length - j) = d by omega]
      exact hpp ip (by omega) (by omega)
    haveI : DecidablePred (fun t => pat.length - j + 1 ≤ t ∧ t ≤ pat.length - j + d ∧
        IsBorder (pat.reverse.take t) (pat.length - j)) :=
      fun _ => inferInstanceAs (Decidable (_ ∧ _ ∧ _))
    obtain ⟨ht1, ht2, ht3⟩ := Nat.find_spec hQex
    have heq : maxBorder (pat.reverse.take (Nat.find hQex)) = pat.length - j := by
      have hge : pat.length - j ≤ maxBorder (pat.reverse.take (Nat.find hQex)) :=
        le_maxBorder ht3
      by_contra hne
      have hgt : pat.length - j < maxBorder (pat.reverse.take (Nat.find hQex)) := by omega
      have hb'b : IsBorder (pat.reverse.take (Nat.find hQex))
          (maxBorder (pat.reverse.take (Nat.find hQex))) :=
        maxBorder_take_isBorder (p := pat.reverse) (by omega) (by omega)
      have hb'lt : maxBorder (pat.reverse.take (Nat.find hQex)) < Nat.find hQex := by
        have h := hb'b.1
        rwa [List.length_take, min_eq_left (by omega)] at h
      have hnest : IsBorder (pat.reverse.take
          (maxBorder (pat.reverse.take (Nat.find hQex)))) (pat.length - j) :=
        isBorder_take_of_isBorder (p := pat.reverse) (by omega) hb'b ht3 hgt
      exact Nat.find_min hQex hb'lt ⟨by omega, by omega, hnest⟩
    have hprefrev : (computeBmPref pat.reverse).getD (Nat.find hQex - 1) 0 =
        maxBorder (pat.reverse.take (Nat.find hQex)) := by
      rw [computeBmPref_getD pat.reverse (Nat.find hQex - 1) (by omega),
        show Nat.find hQex - 1 + 1 = Nat.find hQex by omega]
    have hpost := sufFold_mem_le pat.length (computeBmPref pat.reverse)
      (List.range pat.length)
      (List.replicate (pat.length + 1)
        (pat.length - (computeBmPref pat).getD (pat.length - 1) 0))
      (Nat.find hQex - 1) (List.mem_range.2 (by omega))
    rw [hprefrev, heq, show pat.length - (pat.length - j) = j by omega] at hpost
    exact le_trans hpost (by omega)
  · -- `d ≥ j`: the base value `count - maxBorder pat` already is at most `d`
    refine le_trans (sufFold_getD_le ..) (le_trans (hbase j) ?_)
    rcases Nat.lt_or_ge d pat.length with hdc | hdc
    · have hbord : IsBorder pat (pat.length - d) := by
        rw [isBorder_iff]
        refine ⟨by omega, fun s hs => ?_⟩
        have := hpp (d + s) (by omega) (by omega)
        rw [show d + s - d = s by omega] at this
        rw [show pat.length - (pat.length - d) + s = d + s by omega]
        exact this
      have hmax := le_maxBorder hbord
      have hpref : (computeBmPref pat).getD (pat.length - 1) 0 = maxBorder pat := by
        rw [computeBmPref_getD pat (pat.length - 1) (by omega)]
        rw [show pat.length - 1 + 1 = pat.length by omega, List.take_length]
      omega
    · have hpref : (computeBmPref pat).getD (pat.length - 1) 0 = maxBorder pat := by
        rw [computeBmPref_getD pat (pat.length - 1) (by omega)]
        rw [show pat.length - 1 + 1 = pat.length by omega, List.take_length]
      omega

/-! ## Lookup behaviour of the bad-character tables -/

theorem lookup_filter_ne {c key : α} (hne : c ≠ key) :
    ∀ es : List (α × Int), (es.filter (fun e => !(e.1 == key))).lookup c = es.lookup c := by
  intro es
  induction es with
  | nil => rfl
  | cons e es IH =>
    by_cases hek : e.1 = key
    · rw [List.filter_cons, if_neg (by simp [hek])]
      rw [IH, List.lookup_cons]
      have : (c == e.1) = false := by simp [hek, hne]
      rw [this]
    · rw [List.filter_cons, if_pos (by simp [hek])]
      rw [List.lookup_cons, List.lookup_cons]
      cases hce : (c == e.1) with
      | true => rfl
      | false => exact IH

theorem SkipTableMap.find_insert (t : SkipTableMap α) (key : α) (v : Int) (c : α) :
    (t.insert key v).find c = if c = key then v else t.find c := by
  unfold SkipTableMap.insert SkipTableMap.find
  by_cases hck : c = key
  · rw [if_pos hck, List.lookup_cons]
    have : (c == key) = true := by simp [hck]
    rw [this]
  · rw [if_neg hck, List.lookup_cons]
    have : (c == key) = false := by simp [hck]
    rw [this, lookup_filter_ne hck]

theorem SkipTableMap.mem_keys_insert (t : SkipTableMap α) (key : α) (v : Int) (c : α) :
    c ∈ (t.insert key v).keys ↔ c = key ∨ c ∈ t.keys := by
  unfold SkipTableMap.insert SkipTableMap.keys
  simp only [List.map_cons, List.mem_cons, List.mem_map, List.mem_filter]
  constructor
  · rintro (h | ⟨e, ⟨he, -⟩, rfl⟩)
    · exact Or.inl h
    · exact Or.inr ⟨e, he, rfl⟩
  · rintro (h | ⟨e, he, rfl⟩)
    · exact Or.inl h
    · by_cases hek : e.1 = key
      · exact Or.inl hek
      · exact Or.inr ⟨e, ⟨he, by simp [hek]⟩, rfl⟩

theorem buildBmSkip_eq (pat : List α) :
    buildBmSkip pat = skipBuild (fun n => (n : Int)) (-1) pat := rfl

theorem buildHorspoolSkip_eq (pat : List α) :
    buildHorspoolSkip pat = skipBuild (fun i => ((pat.length - 1 - i : Nat) : Int))
      ((pat.length : Nat) : Int) (pat.take (pat.length - 1)) := rfl

theorem skipBuild_concat (v : Nat → Int) (d : Int) (L : List α) (x : α) :
    skipBuild v d (L ++ [x]) = (skipBuild v d L).insert x (v L.length) := by
  unfold skipBuild
  rw [List.enum_append]
  have : List.enumFrom L.length [x] = [(L.length, x)] := rfl
  rw [this, List.foldl_append, List.foldl_cons, List.foldl_nil]

theorem skipBuild_dflt (v : Nat → Int) (d : Int) (L : List α) :
    (skipBuild v d L).dflt = d := by
  induction L using List.reverseRecOn with
  | nil => rfl
  | append_singleton L x IH =>
    rw [skipBuild_concat]
    exact IH

theorem skipBuild_find_not_mem (v : Nat → Int) (d : Int) (L : List α) (c : α)
    (h : c ∉ L) : (skipBuild v d L).find c = d := by
  induction L using List.reverseRecOn with
  | nil => rfl
  | append_singleton L x IH =>
    rw [skipBuild_concat, SkipTableMap.find_insert,
      if_neg (fun hc => h (by simp [hc]))]
    exact IH (fun hc => h (by simp [hc]))

theorem skipBuild_find_mem (v : Nat → Int) (d : Int) (L : List α) (c : α)
    (h : c ∈ L) :
    ∃ idx, idx < L.length ∧ L[idx]? = some c ∧
      (∀ idx', idx < idx' → idx' < L.length → L[idx']? ≠ some c) ∧
      (skipBuild v d L).find c = v idx := by
  induction L using List.reverseRecOn with
  | nil => cases h
  | append_singleton L x IH =>
    rw [skipBuild_concat, SkipTableMap.find_insert]
    by_cases hcx : c = x
    · refine ⟨L.length, by simp, ?_, ?_, by rw [if_pos hcx]⟩
      · rw [List.getElem?_concat_length, hcx]
      · intro idx' h1 h2
        simp only [List.length_append, List.length_cons, List.length_nil] at h2
        omega
    · have hcL : c ∈ L := by
        rcases List.mem_append.1 h with h' | h'
        · exact h'
        · simp at h'
          exact absurd h' hcx
      obtain ⟨idx, hi1, hi2, hi3, hi4⟩ := IH hcL
      refine ⟨idx, by rw [List.length_append]; omega, ?_, ?_, by rw [if_neg hcx]; exact hi4⟩
      · rw [List.getElem?_append, if_pos hi1]
        exact hi2
      · intro idx' h1 h2
        simp only [List.length_append, List.length_cons, List.length_nil] at h2
        rcases Nat.lt_or_ge idx' L.length with hlt | hge
        · rw [List.getElem?_append, if_pos hlt]
          exact hi3 idx' h1 hlt
        · have : idx' = L.length := by omega
          subst this
          rw [List.getElem?_concat_length]
          intro hcon
          exact hcx (Option.some_injective _ hcon).symm

theorem skipBuild_mem_keys (v : Nat → Int) (d : Int) (L : List α) (c : α) :
    c ∈ (skipBuild v d L).keys ↔ c ∈ L := by
  induction L using List.reverseRecOn with
  | nil =>
    constructor
    · intro h; cases h
    · intro h; cases h
  | append_singleton L x IH =>
    rw [skipBuild_concat, SkipTableMap.mem_keys_insert, IH, List.mem_append]
    constructor
    · rintro (h | h)
      · exact Or.inr (by simp [h])
      · exact Or.inl h
    · rintro (h | h)
      · exact Or.inr h
      · exact Or.inl (by simpa using h)

/-- Maximality of the rightmost-occurrence index. -/
theorem le_rightmostOcc {pat : List α} {i : Nat} {c : α} (h : pat[i]? = some c) :
    i ≤ rightmostOcc pat c := by
  have hb : i < pat.length := by
    rcases List.getElem?_eq_some.1 h with ⟨hlt, -⟩
    exact hlt
  exact Nat.le_findGreatest (by omega) h

/-- The uniquely-determined rightmost occurrence. -/
theorem rightmostOcc_eq {pat : List α} {idx : Nat} {c : α}
    (h1 : pat[idx]? = some c)
    (h2 : ∀ idx', idx < idx' → idx' < pat.length → pat[idx']? ≠ some c) :
    rightmostOcc pat c = idx := by
  have hb : idx < pat.length := by
    rcases List.getElem?_eq_some.1 h1 with ⟨hlt, -⟩
    exact hlt
  rw [rightmostOcc, Nat.findGreatest_eq_iff]
  exact ⟨by omega, fun _ => h1, fun n hn hn' => h2 n hn (by omega)⟩

/-- Complete description of the Boyer-Moore bad-character table lookup. -/
theorem buildBmSkip_find (pat : List α) (c : α) :
    (buildBmSkip pat).find c =
      if c ∈ pat then ((rightmostOcc pat c : Nat) : Int) else -1 := by
  rw [buildBmSkip_eq]
  by_cases h : c ∈ pat
  · rw [if_pos h]
    obtain ⟨idx, h1, h2, h3, h4⟩ := skipBuild_find_mem _ _ _ _ h
    rw [h4, rightmostOcc_eq h2 h3]
  · rw [if_neg h]
    exact skipBuild_find_not_mem _ _ _ _ h

/-- Bad-character soundness: the stored value dominates every occurrence. -/
theorem buildBmSkip_find_ge {pat : List α} {i : Nat} {c : α} (h : pat[i]? = some c) :
    (i : Int) ≤ (buildBmSkip pat).find c := by
  have hmem : c ∈ pat := by
    rcases List.getElem?_eq_some.1 h with ⟨hlt, hval⟩
    exact hval ▸ List.getElem_mem hlt
  rw [buildBmSkip_find, if_pos hmem]
  exact_mod_cast le_rightmostOcc h

/-- Horspool table lookups are positive (for a non-empty pattern). -/
theorem buildHorspoolSkip_pos (pat : List α) (hm : 1 ≤ pat.length) (c : α) :
    1 ≤ (buildHorspoolSkip pat).find c := by
  rw [buildHorspoolSkip_eq]
  by_cases h : c ∈ pat.take (pat.length - 1)
  · obtain ⟨idx, h1, h2, h3, h4⟩ := skipBuild_find_mem _ _ _ _ h
    rw [h4]
    rw [List.length_take] at h1
    have : 1 ≤ pat.length - 1 - idx := by omega
    exact_mod_cast this
  · rw [skipBuild_find_not_mem _ _ _ _ h]
    exact_mod_cast hm

/-- Horspool bad-character soundness: an occurrence of `c` among the first
`m - 1` pattern symbols bounds the stored shift. -/
theorem buildHorspoolSkip_find_le {pat : List α} {i : Nat} {c : α}
    (hi : i < pat.length - 1) (h : pat[i]? = some c) :
    (buildHorspoolSkip pat).find c ≤ ((pat.length - 1 - i : Nat) : Int) := by
  have htake : (pat.take (pat.length - 1))[i]? = some c := by
    rw [List.getElem?_take, if_pos hi]
    exact h
  have hmem : c ∈ pat.take (pat.length - 1) := by
    rcases List.getElem?_eq_some.1 htake with ⟨hlt, hval⟩
    exact hval ▸ List.getElem_mem hlt
  rw [buildHorspoolSkip_eq]
  obtain ⟨idx, h1, h2, h3, h4⟩ := skipBuild_find_mem _ _ _ _ hmem
  rw [h4]
  have hge : i ≤ idx := by
    by_contra hlt
    exact h3 i (by omega) (by rw [List.length_take]; omega) htake
  have : pat.length - 1 - idx ≤ pat.length - 1 - i := by omega
  exact_mod_cast this

/-- The Horspool lookup never exceeds the pattern length. -/
theorem buildHorspoolSkip_le_len (pat : List α) (c : α) :
    (buildHorspoolSkip pat).find c ≤ (pat.length : Int) := by
  rw [buildHorspoolSkip_eq]
  by_cases h : c ∈ pat.take (pat.length - 1)
  · obtain ⟨idx, h1, h2, h3, h4⟩ := skipBuild_find_mem _ _ _ _ h
    rw [h4]
    have : pat.length - 1 - idx ≤ pat.length := by omega
    exact_mod_cast this
  · rw [skipBuild_find_not_mem _ _ _ _ h]

/-! ## The reference scan -/

theorem matchAt_iff_isPrefixOf {pat corpus : List α} {pos : Nat} :
    pat.isPrefixOf (corpus.drop pos) = true ↔ MatchAt pat corpus pos := by
  rw [List.isPrefixOf_iff_prefix, List.prefix_iff_eq_take]
  constructor
  · intro h t ht
    have h2 := congrArg (fun l => l[t]?) h
    simp only at h2
    rwa [List.getElem?_take, if_pos ht, List.getElem?_drop] at h2
  · intro h
    apply List.ext_getElem?
    intro n
    rw [List.getElem?_take, List.getElem?_drop]
    by_cases hn : n < pat.length
    · rw [if_pos hn]
      exact h n hn
    · rw [if_neg hn]
      exact List.getElem?_eq_none (by omega)

/-- A (nonempty-pattern) match fits inside the corpus. -/
theorem MatchAt.add_le {pat corpus : List α} {pos : Nat} (hm : 1 ≤ pat.length)
    (h : MatchAt pat corpus pos) : pos + pat.length ≤ corpus.length := by
  have h1 := h (pat.length - 1) (by omega)
  rw [getElem?_eq_some_getD (by omega)] at h1
  rcases List.getElem?_eq_some.1 h1.symm with ⟨hlt, -⟩
  omega

theorem find?_range'_eq_some :
    ∀ (len s : Nat) (f : Nat → Bool) (p : Nat),
      s ≤ p → p < s + len → f p = true → (∀ q, s ≤ q → q < p → f q = false) →
      (List.range' s len).find? f = some p := by
  intro len
  induction len with
  | zero =>
    intro s f p h1 h2
    omega
  | succ len IH =>
    intro s f p h1 h2 hf hmin
    rw [List.range'_succ]
    by_cases hsp : s = p
    · subst hsp
      rw [List.find?_cons_of_pos _ hf]
    · rw [List.find?_cons_of_neg _ (by rw [hmin s le_rfl (by omega)]; simp)]
      exact IH (s+1) f p (by omega) (by omega) hf (fun q hq1 hq2 => hmin q (by omega) hq2)

theorem find?_range'_eq_none {len s : Nat} {f : Nat → Bool}
    (h : ∀ q, s ≤ q → q < s + len → f q = false) :
    (List.range' s len).find? f = none := by
  rw [List.find?_eq_none]
  intro x hx
  rcases List.mem_range'.1 hx with ⟨i, hi, rfl⟩
  rw [h (s + 1 * i) (by omega) (by omega)]
  simp

/-- When `p` is the leftmost match, the reference scan returns `p`. -/
theorem naiveSearch_eq_of_match {pat corpus : List α} {p : Nat}
    (hmat : MatchAt pat corpus p) (hmin : ∀ q, q < p → ¬ MatchAt pat corpus q)
    (hp : p ≤ corpus.length) :
    naiveSearch corpus pat = p := by
  unfold naiveSearch
  rw [List.range_eq_range',
    find?_range'_eq_some (corpus.length + 1) 0 _ p (by omega) (by omega)
      (matchAt_iff_isPrefixOf.2 hmat)
      (fun q _ hq => by
        rcases Bool.eq_false_or_eq_true (pat.isPrefixOf (corpus.drop q)) with h | h
        · exact absurd (matchAt_iff_isPrefixOf.1 h) (hmin q hq)
        · exact h)]

/-- When there is no match at all, the reference scan returns the sentinel. -/
theorem naiveSearch_eq_sentinel {pat corpus : List α}
    (h : ∀ q, ¬ MatchAt pat corpus q) : naiveSearch corpus pat = corpus.length := by
  unfold naiveSearch
  rw [List.range_eq_range', find?_range'_eq_none (fun q _ _ => by
    rcases Bool.eq_false_or_eq_true (pat.isPrefixOf (corpus.drop q)) with hb | hb
    · exact absurd (matchAt_iff_isPrefixOf.1 hb) (h q)
    · exact hb)]

/-! ## Behaviour of the inner comparison loops -/

theorem bmInner_succ (pat corpus : List α) (pos j : Nat) :
    bmInner pat corpus pos (j+1) =
      match pat[j]?, corpus[pos + j]? with
      | some a, some b => if a = b then bmInner pat corpus pos j else some (j+1)
      | _, _ => none := rfl

theorem bmhInner_zero (pat corpus : List α) (pos : Nat) :
    bmhInner pat corpus pos 0 =
      match pat[0]?, corpus[pos]? with
      | some a, some b => if a = b then some true else some false
      | _, _ => none := rfl

theorem bmhInner_succ (pat corpus : List α) (pos j : Nat) :
    bmhInner pat corpus pos (j+1) =
      match pat[j+1]?, corpus[pos + (j+1)]? with
      | some a, some b => if a = b then bmhInner pat corpus pos j else some false
      | _, _ => none := rfl

theorem kmpInner_succ (pat corpus : List α) (ms fuel idx : Nat) :
    kmpInner pat corpus ms (fuel+1) idx =
      match pat[idx]?, corpus[ms + idx]? with
      | some a, some b =>
        if a = b then
          if idx + 1 = pat.length then some (Sum.inl ms)
          else kmpInner pat corpus ms fuel (idx + 1)
        else some (Sum.inr idx)
      | _, _ => none := rfl


/-- Right-to-left comparison of `boyer_moore::do_search`. -/
theorem bmInner_spec (pat corpus : List α) (pos : Nat) :
    ∀ j, j ≤ pat.length → pos + j ≤ corpus.length →
      (bmInner pat corpus pos j = some 0 ∧ ∀ t, t < j → pat[t]? = corpus[pos + t]?) ∨
      (∃ jr, 1 ≤ jr ∧ jr ≤ j ∧ bmInner pat corpus pos j = some jr ∧
        pat[jr - 1]? ≠ corpus[pos + (jr - 1)]? ∧
        ∀ t, jr ≤ t → t < j → pat[t]? = corpus[pos + t]?) := by
  intro j
  induction j with
  | zero =>
    intro _ _
    exact Or.inl ⟨rfl, fun t ht => absurd ht (by omega)⟩
  | succ j IH =>
    intro hj hpos
    have hpj : pat[j]? = some (pat.getD j default) := getElem?_eq_some_getD (by omega)
    have hcj : corpus[pos + j]? = some (corpus.getD (pos + j) default) :=
      getElem?_eq_some_getD (by omega)
    by_cases heq : pat.getD j default = corpus.getD (pos + j) default
    · have hstep : bmInner pat corpus pos (j+1) = bmInner pat corpus pos j := by
        rw [bmInner_succ, hpj, hcj]
        exact if_pos heq
      rcases IH (by omega) (by omega) with ⟨h1, h2⟩ | ⟨jr, h1, h2, h3, h4, h5⟩
      · refine Or.inl ⟨hstep ▸ h1, fun t ht => ?_⟩
        rcases Nat.lt_or_ge t j with htj | htj
        · exact h2 t htj
        · have : t = j := by omega
          subst this
          rw [hpj, hcj, heq]
      · refine Or.inr ⟨jr, h1, by omega, hstep ▸ h3, h4, fun t ht1 ht2 => ?_⟩
        rcases Nat.lt_or_ge t j with htj | htj
        · exact h5 t ht1 htj
        · have : t = j := by omega
          subst this
          rw [hpj, hcj, heq]
    · refine Or.inr ⟨j+1, by omega, le_rfl, ?_, ?_, fun t ht1 ht2 => by omega⟩
      · rw [bmInner_succ, hpj, hcj]
        exact if_neg heq
      · simp only [Nat.add_sub_cancel]
        rw [hpj, hcj]
        exact fun hcon => heq (Option.some_injective _ hcon)

/-- Right-to-left comparison of `boyer_moore_horspool::do_search`. -/
theorem bmhInner_spec (pat corpus : List α) (pos : Nat) :
    ∀ j, j < pat.length → pos + j < corpus.length →
      (bmhInner pat corpus pos j = some true ∧ ∀ t, t ≤ j → pat[t]? = corpus[pos + t]?) ∨
      (bmhInner pat corpus pos j = some false ∧ ∃ t, t ≤ j ∧ pat[t]? ≠ corpus[pos + t]?) := by
  intro j
  induction j with
  | zero =>
    intro hj hpos
    have hpj : pat[0]? = some (pat.getD 0 default) := getElem?_eq_some_getD (by omega)
    have hcj : corpus[pos]? = some (corpus.getD pos default) := getElem?_eq_some_getD (by omega)
    by_cases heq : pat.getD 0 default = corpus.getD pos default
    · refine Or.inl ⟨?_, fun t ht => ?_⟩
      · rw [bmhInner_zero, hpj, hcj]
        exact if_pos heq
      · have : t = 0 := by omega
        subst this
        rw [Nat.add_zero, hpj, hcj, heq]
    · refine Or.inr ⟨?_, 0, le_rfl, ?_⟩
      · rw [bmhInner_zero, hpj, hcj]
        exact if_neg heq
      · rw [Nat.add_zero, hpj, hcj]
        exact fun hcon => heq (Option.some_injective _ hcon)
  | succ j IH =>
    intro hj hpos
    have hpj : pat[j+1]? = some (pat.getD (j+1) default) := getElem?_eq_some_getD (by omega)
    have hcj : corpus[pos + (j+1)]? = some (corpus.getD (pos + (j+1)) default) :=
      getElem?_eq_some_getD (by omega)
    by_cases heq : pat.getD (j+1) default = corpus.getD (pos + (j+1)) default
    · have hstep : bmhInner pat corpus pos (j+1) = bmhInner pat corpus pos j := by
        rw [bmhInner_succ, hpj, hcj]
        exact if_pos heq
      rcases IH (by omega) (by omega) with ⟨h1, h2⟩ | ⟨h1, t, ht1, ht2⟩
      · refine Or.inl ⟨hstep ▸ h1, fun t ht => ?_⟩
        rcases Nat.lt_or_ge t (j+1) with htj | htj
        · exact h2 t (by omega)
        · have : t = j + 1 := by omega
          subst this
          rw [hpj, hcj, heq]
      · exact Or.inr ⟨hstep ▸ h1, t, by omega, ht2⟩
    · refine Or.inr ⟨?_, j+1, le_rfl, ?_⟩
      · rw [bmhInner_succ, hpj, hcj]
        exact if_neg heq
      · rw [hpj, hcj]
        exact fun hcon => heq (Option.some_injective _ hcon)

/-- Left-to-right comparison of `knuth_morris_pratt::do_search`. -/
theorem kmpInner_spec (pat corpus : List α) (ms : Nat) :
    ∀ fuel idx, idx < pat.length → ms + pat.length ≤ corpus.length →
      pat.length - idx < fuel →
      (kmpInner pat corpus ms fuel idx = some (Sum.inl ms) ∧
        ∀ t, idx ≤ t → t < pat.length → pat[t]? = corpus[ms + t]?) ∨
      (∃ tr, idx ≤ tr ∧ tr < pat.length ∧
        kmpInner pat corpus ms fuel idx = some (Sum.inr tr) ∧
        pat[tr]? ≠ corpus[ms + tr]? ∧
        ∀ t, idx ≤ t → t < tr → pat[t]? = corpus[ms + t]?) := by
  intro fuel
  induction fuel with
  | zero =>
    intro idx h1 h2 h3
    omega
  | succ fuel IH =>
    intro idx hidx hmn hfuel
    have hpi : pat[idx]? = some (pat.getD idx default) := getElem?_eq_some_getD (by omega)
    have hci : corpus[ms + idx]? = some (corpus.getD (ms + idx) default) :=
      getElem?_eq_some_getD (by omega)
    by_cases heq : pat.getD idx default = corpus.getD (ms + idx) default
    · by_cases hend : idx + 1 = pat.length
      · refine Or.inl ⟨?_, fun t ht1 ht2 => ?_⟩
        · rw [kmpInner_succ, hpi, hci]
          exact (if_pos heq).trans (if_pos hend)
        · have : t = idx := by omega
          subst this
          rw [hpi, hci, heq]
      · have hstep : kmpInner pat corpus ms (fuel+1) idx =
            kmpInner pat corpus ms fuel (idx+1) := by
          rw [kmpInner_succ, hpi, hci]
          exact (if_pos heq).trans (if_neg hend)
        rcases IH (idx+1) (by omega) hmn (by omega) with ⟨h1, h2⟩ | ⟨tr, h1, h2, h3, h4, h5⟩
        · refine Or.inl ⟨hstep ▸ h1, fun t ht1 ht2 => ?_⟩
          rcases Nat.lt_or_ge t (idx+1) with htj | htj
          · have : t = idx := by omega
            subst this
            rw [hpi, hci, heq]
          · exact h2 t htj ht2
        · refine Or.inr ⟨tr, by omega, h2, hstep ▸ h3, h4, fun t ht1 ht2 => ?_⟩
          rcases Nat.lt_or_ge t (idx+1) with htj | htj
          · have : t = idx := by omega
            subst this
            rw [hpi, hci, heq]
          · exact h5 t htj ht2
    · refine Or.inr ⟨idx, le_rfl, hidx, ?_, ?_, fun t ht1 ht2 => by omega⟩
      · rw [kmpInner_succ, hpi, hci]
        exact if_neg heq
      · rw [hpi, hci]
        exact fun hcon => heq (Option.some_injective _ hcon)

/-! ## Equivalence of the searches with the reference scan -/

theorem naiveSearch_nil {pat corpus : List α} (h : pat.length = 0) :
    naiveSearch corpus pat = 0 :=
  naiveSearch_eq_of_match (fun t ht => absurd ht (by omega))
    (fun q hq => absurd hq (by omega)) (by omega)

theorem naiveSearch_sentinel_of_short {pat corpus : List α}
    (h : corpus.length < pat.length) :
    naiveSearch corpus pat = corpus.length :=
  naiveSearch_eq_sentinel (fun q hmat => by
    have := hmat.add_le (by omega)
    omega)

theorem bmhLoop_succ (pat corpus : List α) (skip : SkipTableMap α)
    (lastPos fuel curPos : Nat) :
    bmhLoop pat corpus skip lastPos (fuel+1) curPos =
      (if curPos ≤ lastPos then
        match bmhInner pat corpus curPos (pat.length - 1) with
        | none => none
        | some true => some curPos
        | some false =>
          match corpus[curPos + (pat.length - 1)]? with
          | none => none
          | some c => bmhLoop pat corpus skip lastPos fuel (curPos + (skip.find c).toNat)
      else some corpus.length) := rfl

/-- The Horspool search loop computes the reference result, from any sound
intermediate state. -/
theorem bmhLoop_eq_naive {pat corpus : List α} (hm : 1 ≤ pat.length)
    (hmn : pat.length ≤ corpus.length) :
    ∀ fuel pos, 1 ≤ fuel → corpus.length - pat.length + 2 - pos ≤ fuel →
      (∀ q, q < pos → ¬ MatchAt pat corpus q) →
      bmhLoop pat corpus (buildHorspoolSkip pat) (corpus.length - pat.length) fuel pos =
        some (naiveSearch corpus pat) := by
  intro fuel
  induction fuel with
  | zero =>
    intro pos h1 _ _
    omega
  | succ fuel IH =>
    intro pos _ hfuel hinv
    rw [bmhLoop_succ]
    by_cases hpos : pos ≤ corpus.length - pat.length
    · rw [if_pos hpos]
      rcases bmhInner_spec pat corpus pos (pat.length - 1) (by omega) (by omega) with
        ⟨hin, hall⟩ | ⟨hin, t, ht1, ht2⟩
      · rw [hin]
        have hmat : MatchAt pat corpus pos := fun u hu => hall u (by omega)
        rw [naiveSearch_eq_of_match hmat hinv (by omega)]
      · rw [hin]
        have hnomatch : ¬ MatchAt pat corpus pos := fun hmat => ht2 (hmat t (by omega))
        have hc : corpus[pos + (pat.length - 1)]? =
            some (corpus.getD (pos + (pat.length - 1)) default) :=
          getElem?_eq_some_getD (by omega)
        rw [hc]
        have hs1 : 1 ≤ (buildHorspoolSkip pat).find
            (corpus.getD (pos + (pat.length - 1)) default) :=
          buildHorspoolSkip_pos pat hm _
        have hsm : (buildHorspoolSkip pat).find
            (corpus.getD (pos + (pat.length - 1)) default) ≤ (pat.length : Int) :=
          buildHorspoolSkip_le_len pat _
        have hinv' : ∀ q, q < pos + ((buildHorspoolSkip pat).find
            (corpus.getD (pos + (pat.length - 1)) default)).toNat →
            ¬ MatchAt pat corpus q := by
          intro q hq
          rcases Nat.lt_or_ge q pos with h | h
          · exact hinv q h
          · rcases Nat.eq_or_lt_of_le h with heq | hlt
            · exact heq ▸ hnomatch
            · intro hmat
              have hdd1 : 1 ≤ q - pos := by omega
              have hdds : q - pos < ((buildHorspoolSkip pat).find
                  (corpus.getD (pos + (pat.length - 1)) default)).toNat := by omega
              have hddm : q - pos ≤ pat.length - 1 := by omega
              have hocc : pat[pat.length - 1 - (q - pos)]? =
                  some (corpus.getD (pos + (pat.length - 1)) default) := by
                have h1 := hmat (pat.length - 1 - (q - pos)) (by omega)
                rw [show q + (pat.length - 1 - (q - pos)) = pos + (pat.length - 1)
                  by omega] at h1
                rw [h1, hc]
              have h2 := buildHorspoolSkip_find_le
                (i := pat.length - 1 - (q - pos)) (by omega) hocc
              omega
        exact IH (pos + ((buildHorspoolSkip pat).find
          (corpus.getD (pos + (pat.length - 1)) default)).toNat) (by omega) (by omega) hinv'
    · rw [if_neg hpos]
      have hnone : ∀ q, ¬ MatchAt pat corpus q := by
        intro q hmat
        rcases Nat.lt_or_ge q pos with h | h
        · exact hinv q h hmat
        · have := hmat.add_le hm
          omega
      rw [naiveSearch_eq_sentinel hnone]

/-- The Boyer-Moore-Horspool search agrees with the reference scan. -/
theorem bmhSearch_eq_naive (pat corpus : List α) :
    bmhSearch pat corpus = some (naiveSearch corpus pat) := by
  unfold bmhSearch
  by_cases hn : corpus.length = 0
  · rw [if_pos hn]
    by_cases hp : pat.length = 0
    · rw [naiveSearch_nil hp, hn]
    · rw [naiveSearch_sentinel_of_short (by omega)]
  · rw [if_neg hn]
    by_cases hp : pat.length = 0
    · rw [if_pos hp, naiveSearch_nil hp]
    · rw [if_neg hp]
      by_cases hcmp : corpus.length < pat.length
      · rw [if_pos hcmp, naiveSearch_sentinel_of_short hcmp]
      · rw [if_neg hcmp]
        exact bmhLoop_eq_naive (by omega) (by omega) (corpus.length + 1) 0 (by omega)
          (by omega) (fun q hq => absurd hq (by omega))

theorem kmpLoop_succ (pat corpus : List α) (skip : List Int)
    (lastMatch fuel idx ms : Nat) :
    kmpLoop pat corpus skip lastMatch (fuel+1) idx ms =
      (if ms ≤ lastMatch then
        match kmpInner pat corpus ms (pat.length + 1) idx with
        | none => none
        | some (Sum.inl pos) => some pos
        | some (Sum.inr idx1) =>
          kmpLoop pat corpus skip lastMatch fuel
            (if 0 ≤ skip.getD idx1 0 then (skip.getD idx1 0).toNat else 0)
            (ms + ((idx1 : Int) - skip.getD idx1 0).toNat)
      else some corpus.length) := rfl

/-- The KMP search loop computes the reference result, from any sound
intermediate state: the first `idx` pattern symbols match at `ms` and no
earlier alignment matches. -/
theorem kmpLoop_eq_naive {pat corpus : List α} (hm : 1 ≤ pat.length)
    (hmn : pat.length ≤ corpus.length) :
    ∀ fuel idx ms, 1 ≤ fuel → corpus.length - pat.length + 2 - ms ≤ fuel →
      idx < pat.length →
      (∀ t, t < idx → pat[t]? = corpus[ms + t]?) →
      (∀ q, q < ms → ¬ MatchAt pat corpus q) →
      kmpLoop pat corpus (initSkipTable pat) (corpus.length - pat.length) fuel idx ms =
        some (naiveSearch corpus pat) := by
  intro fuel
  induction fuel with
  | zero =>
    intro idx ms h1 _ _ _ _
    omega
  | succ fuel IH =>
    intro idx ms _ hfuel hidx hpre hinv
    rw [kmpLoop_succ]
    by_cases hms : ms ≤ corpus.length - pat.length
    · rw [if_pos hms]
      rcases kmpInner_spec pat corpus ms (pat.length + 1) idx
          hidx (by omega) (by omega) with
        ⟨hin, hall⟩ | ⟨tr, h1, h2, hin, hne, hctx⟩
      · rw [hin]
        have hmat : MatchAt pat corpus ms := by
          intro u hu
          rcases Nat.lt_or_ge u idx with h | h
          · exact hpre u h
          · exact hall u h hu
        rw [naiveSearch_eq_of_match hmat hinv (by omega)]
      · rw [hin]
        show kmpLoop pat corpus (initSkipTable pat) (corpus.length - pat.length) fuel
          (if 0 ≤ (initSkipTable pat).getD tr 0 then ((initSkipTable pat).getD tr 0).toNat
            else 0)
          (ms + ((tr : Int) - (initSkipTable pat).getD tr 0).toNat) =
          some (naiveSearch corpus pat)
        obtain ⟨hsklen, hsk0, hski⟩ := initSkipTable_facts pat
        have hallpre : ∀ u, u < tr → pat[u]? = corpus[ms + u]? := by
          intro u hu
          rcases Nat.lt_or_ge u idx with h | h
          · exact hpre u h
          · exact hctx u h hu
        have hnoms : ¬ MatchAt pat corpus ms := fun hmat => hne (hmat tr h2)
        by_cases htr0 : tr = 0
        · subst htr0
          rw [hsk0]
          have e1 : ¬ ((0 : Int) ≤ -1) := by omega
          have e2 : (((0 : Nat) : Int) - -1).toNat = 1 := by omega
          rw [if_neg e1, e2]
          refine IH 0 (ms + 1) (by omega) (by omega) (by omega)
            (fun t ht => absurd ht (by omega)) ?_
          intro q hq
          rcases Nat.lt_or_ge q ms with h | h
          · exact hinv q h
          · have : q = ms := by omega
            subst this
            exact hnoms
        · have hskv := hski tr (by omega) (by omega)
          rw [hskv]
          have hbb_lt : maxBorder (pat.take tr) < tr := maxBorder_take_lt (by omega) (by omega)
          have e1 : (0 : Int) ≤ (maxBorder (pat.take tr) : Int) := by omega
          have e2 : ((maxBorder (pat.take tr) : Int)).toNat = maxBorder (pat.take tr) := by
            omega
          have e3 : ((tr : Int) - (maxBorder (pat.take tr) : Int)).toNat =
              tr - maxBorder (pat.take tr) := by omega
          rw [if_pos e1, e2, e3]
          have hbord : IsBorder (pat.take tr) (maxBorder (pat.take tr)) :=
            maxBorder_take_isBorder (by omega) (by omega)
          rw [isBorder_take_iff (by omega)] at hbord
          refine IH (maxBorder (pat.take tr)) (ms + (tr - maxBorder (pat.take tr)))
            (by omega) (by omega) (by omega) ?_ ?_
          · -- the border re-establishes the matched prefix
            intro u hu
            have hb2 := hbord.2 u hu
            have hc2 := hallpre (tr - maxBorder (pat.take tr) + u) (by omega)
            rw [show ms + (tr - maxBorder (pat.take tr)) + u =
              ms + (tr - maxBorder (pat.take tr) + u) by omega]
            rw [hb2, hc2]
          · -- no skipped alignment can match
            intro q hq
            rcases Nat.lt_or_ge q ms with h | h
            · exact hinv q h
            · rcases Nat.eq_or_lt_of_le h with heq | hlt
              · exact heq ▸ hnoms
              · intro hmat
                have hdd1 : 1 ≤ q - ms := by omega
                have hdd2 : q - ms < tr - maxBorder (pat.take tr) := by omega
                -- a match here would give `take tr` a border longer than maximal
                have hbig : IsBorder (pat.take tr) (tr - (q - ms)) := by
                  rw [isBorder_take_iff (by omega)]
                  refine ⟨by omega, fun s hs => ?_⟩
                  have hm1 := hmat s (by omega)
                  rw [show q + s = ms + (q - ms + s) by omega] at hm1
                  have hm2 := hallpre (q - ms + s) (by omega)
                  rw [show tr - (tr - (q - ms)) + s = q - ms + s by omega]
                  rw [hm1, hm2]
                have := le_maxBorder hbig
                omega
    · rw [if_neg hms]
      have hnone : ∀ q, ¬ MatchAt pat corpus q := by
        intro q hmat
        rcases Nat.lt_or_ge q ms with h | h
        · exact hinv q h hmat
        · have := hmat.add_le hm
          omega
      rw [naiveSearch_eq_sentinel hnone]

/-- The Knuth-Morris-Pratt search agrees with the reference scan. -/
theorem kmpSearch_eq_naive (pat corpus : List α) :
    kmpSearch pat corpus = some (naiveSearch corpus pat) := by
  unfold kmpSearch
  by_cases hn : corpus.length = 0
  · rw [if_pos hn]
    by_cases hp : pat.length = 0
    · rw [naiveSearch_nil hp, hn]
    · rw [naiveSearch_sentinel_of_short (by omega)]
  · rw [if_neg hn]
    by_cases hp : pat.length = 0
    · rw [if_pos hp, naiveSearch_nil hp]
    · rw [if_neg hp]
      by_cases hcmp : corpus.length < pat.length
      · rw [if_pos hcmp, naiveSearch_sentinel_of_short hcmp]
      · rw [if_neg hcmp]
        exact kmpLoop_eq_naive (by omega) (by omega) (corpus.length + 1) 0 0 (by omega)
          (by omega) (by omega) (fun t ht => absurd ht (by omega))
          (fun q hq => absurd hq (by omega))

theorem bmLoop_succ (pat corpus : List α) (skip : SkipTableMap α) (suffix : List Nat)
    (lastPos fuel curPos : Nat) :
    bmLoop pat corpus skip suffix lastPos (fuel+1) curPos =
      (if curPos ≤ lastPos then
        match bmInner pat corpus curPos pat.length with
        | none => none
        | some 0 => some curPos
        | some (j+1) =>
          match corpus[curPos + j]? with
          | none => none
          | some c =>
            if skip.find c < ((j+1 : Nat) : Int) ∧
                (suffix.getD (j+1) 0 : Int) < ((j+1 : Nat) : Int) - skip.find c - 1 then
              bmLoop pat corpus skip suffix lastPos fuel
                (curPos + (((j+1 : Nat) : Int) - skip.find c - 1).toNat)
            else bmLoop pat corpus skip suffix lastPos fuel (curPos + suffix.getD (j+1) 0)
      else some corpus.length) := rfl

/-- The Boyer-Moore bad-character value is at least the construction default. -/
theorem buildBmSkip_find_ge_neg (pat : List α) (c : α) :
    -1 ≤ (buildBmSkip pat).find c := by
  rw [buildBmSkip_find]
  by_cases h : c ∈ pat
  · rw [if_pos h]
    omega
  · rw [if_neg h]

/-- The Boyer-Moore search loop computes the reference result, from any
position with no earlier match. -/
theorem bmLoop_eq_naive {pat corpus : List α} (hm : 1 ≤ pat.length)
    (hmn : pat.length ≤ corpus.length) :
    ∀ fuel pos, 1 ≤ fuel → corpus.length - pat.length + 2 - pos ≤ fuel →
      (∀ q, q < pos → ¬ MatchAt pat corpus q) →
      bmLoop pat corpus (buildBmSkip pat) (createSuffixTable pat)
        (corpus.length - pat.length) fuel pos = some (naiveSearch corpus pat) := by
  intro fuel
  induction fuel with
  | zero =>
    intro pos h1 _ _
    omega
  | succ fuel IH =>
    intro pos _ hfuel hinv
    rw [bmLoop_succ]
    by_cases hpos : pos ≤ corpus.length - pat.length
    · rw [if_pos hpos]
      rcases bmInner_spec pat corpus pos pat.length le_rfl
          (by omega) with ⟨hin, hall⟩ | ⟨jr, hj1, hj2, hin, hne, hctx⟩
      · rw [hin]
        have hmat : MatchAt pat corpus pos := fun u hu => hall u hu
        rw [naiveSearch_eq_of_match hmat hinv (by omega)]
      · obtain ⟨j, rfl⟩ : ∃ j, jr = j + 1 := ⟨jr - 1, by omega⟩
        rw [hin]
        simp only [Nat.add_sub_cancel] at hne
        have hcc : corpus[pos + j]? = some (corpus.getD (pos + j) default) :=
          getElem?_eq_some_getD (by omega)
        show (match corpus[pos + j]? with
          | none => none
          | some c =>
            if (buildBmSkip pat).find c < ((j+1 : Nat) : Int) ∧
                ((createSuffixTable pat).getD (j+1) 0 : Int) <
                  ((j+1 : Nat) : Int) - (buildBmSkip pat).find c - 1 then
              bmLoop pat corpus (buildBmSkip pat) (createSuffixTable pat)
                (corpus.length - pat.length) fuel
                (pos + (((j+1 : Nat) : Int) - (buildBmSkip pat).find c - 1).toNat)
            else
              bmLoop pat corpus (buildBmSkip pat) (createSuffixTable pat)
                (corpus.length - pat.length) fuel
                (pos + (createSuffixTable pat).getD (j+1) 0)) =
          some (naiveSearch corpus pat)
        rw [hcc]
        show (if (buildBmSkip pat).find (corpus.getD (pos + j) default) < ((j+1 : Nat) : Int) ∧
              ((createSuffixTable pat).getD (j+1) 0 : Int) <
                ((j+1 : Nat) : Int) -
                  (buildBmSkip pat).find (corpus.getD (pos + j) default) - 1 then
            bmLoop pat corpus (buildBmSkip pat) (createSuffixTable pat)
              (corpus.length - pat.length) fuel
              (pos + (((j+1 : Nat) : Int) -
                (buildBmSkip pat).find (corpus.getD (pos + j) default) - 1).toNat)
          else
            bmLoop pat corpus (buildBmSkip pat) (createSuffixTable pat)
              (corpus.length - pat.length) fuel
              (pos + (createSuffixTable pat).getD (j+1) 0)) =
          some (naiveSearch corpus pat)
        have hnomatch : ¬ MatchAt pat corpus pos := fun hmat => hne (hmat j (by omega))
        have hsfx1 : 1 ≤ (createSuffixTable pat).getD (j+1) 0 :=
          createSuffixTable_pos pat hm (j+1) (by omega)
        have hkneg : -1 ≤ (buildBmSkip pat).find (corpus.getD (pos + j) default) :=
          buildBmSkip_find_ge_neg pat _
        by_cases hbr : (buildBmSkip pat).find (corpus.getD (pos + j) default) <
              ((j+1 : Nat) : Int) ∧
            ((createSuffixTable pat).getD (j+1) 0 : Int) <
              ((j+1 : Nat) : Int) -
                (buildBmSkip pat).find (corpus.getD (pos + j) default) - 1
        · rw [if_pos hbr]
          have hms2 : (2 : Int) ≤ ((j+1 : Nat) : Int) -
              (buildBmSkip pat).find (corpus.getD (pos + j) default) - 1 := by
            have := hbr.2
            omega
          have hinv' : ∀ q, q < pos + (((j+1 : Nat) : Int) -
              (buildBmSkip pat).find (corpus.getD (pos + j) default) - 1).toNat →
              ¬ MatchAt pat corpus q := by
            intro q hq
            rcases Nat.lt_or_ge q pos with h | h
            · exact hinv q h
            · rcases Nat.eq_or_lt_of_le h with heq | hlt
              · exact heq ▸ hnomatch
              · intro hmat
                have hddj : q - pos ≤ j := by omega
                have hocc : pat[j - (q - pos)]? =
                    some (corpus.getD (pos + j) default) := by
                  have h1 := hmat (j - (q - pos)) (by omega)
                  rw [show q + (j - (q - pos)) = pos + j by omega] at h1
                  rw [h1, hcc]
                have h2 := buildBmSkip_find_ge hocc
                omega
          exact IH _ (by omega) (by omega) hinv'
        · rw [if_neg hbr]
          have hinv' : ∀ q, q < pos + (createSuffixTable pat).getD (j+1) 0 →
              ¬ MatchAt pat corpus q := by
            intro q hq
            rcases Nat.lt_or_ge q pos with h | h
            · exact hinv q h
            · rcases Nat.eq_or_lt_of_le h with heq | hlt
              · exact heq ▸ hnomatch
              · intro hmat
                have hpp : PseudoPeriod pat (j+1) (q - pos) := by
                  intro ip hip1 hip2
                  have hd1 : q - pos ≤ ip := le_trans (le_max_right _ _) hip1
                  have hj1' : j + 1 ≤ ip := le_trans (le_max_left _ _) hip1
                  have h1 := hmat (ip - (q - pos)) (by omega)
                  rw [show q + (ip - (q - pos)) = pos + ip by omega] at h1
                  have h2 := hctx ip hj1' hip2
                  rw [h1, h2]
                have := createSuffixTable_safe pat (by omega) (by omega) (by omega) hpp
                omega
          exact IH _ (by omega) (by omega) hinv'
    · rw [if_neg hpos]
      have hnone : ∀ q, ¬ MatchAt pat corpus q := by
        intro q hmat
        rcases Nat.lt_or_ge q pos with h | h
        · exact hinv q h hmat
        · have := hmat.add_le hm
          omega
      rw [naiveSearch_eq_sentinel hnone]

/-- The Boyer-Moore search agrees with the reference scan. -/
theorem bmSearch_eq_naive (pat corpus : List α) :
    bmSearch pat corpus = some (naiveSearch corpus pat) := by
  unfold bmSearch
  by_cases hn : corpus.length = 0
  · rw [if_pos hn]
    by_cases hp : pat.length = 0
    · rw [naiveSearch_nil hp, hn]
    · rw [naiveSearch_sentinel_of_short (by omega)]
  · rw [if_neg hn]
    by_cases hp : pat.length = 0
    · rw [if_pos hp, naiveSearch_nil hp]
    · rw [if_neg hp]
      by_cases hcmp : corpus.length < pat.length
      · rw [if_pos hcmp, naiveSearch_sentinel_of_short hcmp]
      · rw [if_neg hcmp]
        exact bmLoop_eq_naive (by omega) (by omega) (corpus.length + 1) 0 (by omega)
          (by omega) (fun q hq => absurd hq (by omega))

/-! ## Equivalence of the two skip-table strategies (1-byte symbols) -/

theorem skipArrayFind_insert (a : List Int) (hlen : a.length = 256) (k : Fin 256) (v : Int)
    (s : Fin 256) :
    skipArrayFind (skipArrayInsert a k v) s = if s = k then v else skipArrayFind a s := by
  unfold skipArrayFind skipArrayInsert
  rw [List.getD_eq_getElem?_getD, List.getElem?_set]
  by_cases he : k.val = s.val
  · rw [if_pos he, if_pos (by rw [hlen]; exact k.isLt), if_pos (Fin.ext he.symm)]
    rfl
  · rw [if_neg he, if_neg (fun hsk => he (by rw [hsk])), ← List.getD_eq_getElem?_getD]

theorem skipArrayInsert_length (a : List Int) (k : Fin 256) (v : Int) :
    (skipArrayInsert a k v).length = a.length := List.length_set ..

theorem skipTables_agree_aux (ops : List (Fin 256 × Int)) :
    ∀ (a : List Int) (t : SkipTableMap (Fin 256)), a.length = 256 →
      (∀ s, skipArrayFind a s = t.find s) →
      ∀ s, skipArrayFind (ops.foldl (fun a kv => skipArrayInsert a kv.1 kv.2) a) s =
        (ops.foldl (fun t kv => t.insert kv.1 kv.2) t).find s := by
  induction ops with
  | nil =>
    intro a t _ h s
    exact h s
  | cons kv ops IH =>
    intro a t hlen h s
    rw [List.foldl_cons, List.foldl_cons]
    refine IH (skipArrayInsert a kv.1 kv.2) (t.insert kv.1 kv.2)
      (by rw [skipArrayInsert_length, hlen]) ?_ s
    intro s'
    rw [skipArrayFind_insert a hlen kv.1 kv.2 s', SkipTableMap.find_insert]
    by_cases he : s' = kv.1
    · rw [if_pos he, if_pos he]
    · rw [if_neg he, if_neg he, h s']

/-! ## Behaviour of the hex decoder -/

theorem hexCharToInt_ok_iff (c : Char) :
    (∃ d, hexCharToInt c = Except.ok d) ↔ IsHexDigit c := by
  unfold hexCharToInt IsHexDigit
  by_cases h1 : '0' ≤ c ∧ c ≤ '9'
  · rw [if_pos h1]
    exact ⟨fun _ => Or.inl h1, fun _ => ⟨_, rfl⟩⟩
  · rw [if_neg h1]
    by_cases h2 : 'A' ≤ c ∧ c ≤ 'F'
    · rw [if_pos h2]
      exact ⟨fun _ => Or.inr (Or.inl h2), fun _ => ⟨_, rfl⟩⟩
    · rw [if_neg h2]
      by_cases h3 : 'a' ≤ c ∧ c ≤ 'f'
      · rw [if_pos h3]
        exact ⟨fun _ => Or.inr (Or.inr h3), fun _ => ⟨_, rfl⟩⟩
      · rw [if_neg h3]
        constructor
        · rintro ⟨d, hd⟩
          cases hd
        · rintro (h | h | h)
          · exact absurd h h1
          · exact absurd h h2
          · exact absurd h h3

theorem hexCharToInt_error (c : Char) (e : HexError) (h : hexCharToInt c = Except.error e) :
    e = HexError.nonHexInput ∧ ¬ IsHexDigit c := by
  constructor
  · unfold hexCharToInt at h
    by_cases h1 : '0' ≤ c ∧ c ≤ '9'
    · rw [if_pos h1] at h; cases h
    · rw [if_neg h1] at h
      by_cases h2 : 'A' ≤ c ∧ c ≤ 'F'
      · rw [if_pos h2] at h; cases h
      · rw [if_neg h2] at h
        by_cases h3 : 'a' ≤ c ∧ c ≤ 'f'
        · rw [if_pos h3] at h; cases h
        · rw [if_neg h3] at h
          cases h
          rfl
  · intro hhex
    obtain ⟨d, hd⟩ := (hexCharToInt_ok_iff c).2 hhex
    rw [hd] at h
    cases h

/-- A successful `decode_one` consumes exactly `numChars` characters. -/
theorem decodeOne_ok_drop :
    ∀ (numChars res : Nat) (input : List Char) (v : Nat) (rest : List Char),
      decodeOne numChars res input = Except.ok (v, rest) →
      rest = input.drop numChars ∧ numChars ≤ input.length := by
  intro numChars
  induction numChars with
  | zero =>
    intro res input v rest h
    unfold decodeOne at h
    cases h
    exact ⟨rfl, by omega⟩
  | succ n IH =>
    intro res input v rest h
    match input with
    | [] =>
      unfold decodeOne at h
      cases h
    | c :: cs =>
      unfold decodeOne at h
      match hc : hexCharToInt c with
      | Except.error e =>
        rw [hc] at h
        cases h
      | Except.ok d =>
        rw [hc] at h
        obtain ⟨h1, h2⟩ := IH _ _ _ _ h
        refine ⟨h1, ?_⟩
        simp only [List.length_cons]
        omega

/-- A `decode_one` over enough hex digits succeeds. -/
theorem decodeOne_ok_of_hex :
    ∀ (numChars res : Nat) (input : List Char),
      (∀ c ∈ input.take numChars, IsHexDigit c) → numChars ≤ input.length →
      ∃ v, decodeOne numChars res input = Except.ok (v, input.drop numChars) := by
  intro numChars
  induction numChars with
  | zero =>
    intro res input _ _
    exact ⟨res, rfl⟩
  | succ n IH =>
    intro res input hhex hlen
    match input with
    | [] => simp at hlen
    | c :: cs =>
      have hc : IsHexDigit c := hhex c (by simp)
      obtain ⟨d, hd⟩ := (hexCharToInt_ok_iff c).2 hc
      obtain ⟨v, hv⟩ := IH (res * 16 + d) cs
        (fun c' hc' => hhex c' (by simp [List.take_cons]; right; exact hc'))
        (by simp at hlen ⊢; omega)
      refine ⟨v, ?_⟩
      unfold decodeOne
      rw [hd]
      exact hv

/-- Error analysis of `decode_one`. -/
theorem decodeOne_error :
    ∀ (numChars res : Nat) (input : List Char) (e : HexError),
      decodeOne numChars res input = Except.error e →
      (e = HexError.notEnoughInput → input.length < numChars) ∧
      (e = HexError.nonHexInput → ∃ c ∈ input, ¬ IsHexDigit c) := by
  intro numChars
  induction numChars with
  | zero =>
    intro res input e h
    unfold decodeOne at h
    cases h
  | succ n IH =>
    intro res input e h
    match input with
    | [] =>
      unfold decodeOne at h
      cases h
      exact ⟨fun _ => by simp, fun hcon => by cases hcon⟩
    | c :: cs =>
      unfold decodeOne at h
      match hc : hexCharToInt c with
      | Except.error e' =>
        rw [hc] at h
        cases h
        obtain ⟨he', hnot⟩ := hexCharToInt_error c _ hc
        subst he'
        constructor
        · intro hcon
          cases hcon
        · intro _
          exact ⟨c, by simp, hnot⟩
      | Except.ok d =>
        rw [hc] at h
        obtain ⟨h1, h2⟩ := IH _ _ _ h
        refine ⟨fun he => ?_, fun he => ?_⟩
        · have := h1 he
          simp only [List.length_cons]
          omega
        · obtain ⟨c', hc1, hc2⟩ := h2 he
          exact ⟨c', by simp [hc1], hc2⟩

/-- All-hex input whose length is a multiple of the unit size decodes with
no error. -/
theorem unhexLoop_ok (sz : Nat) (hsz : 1 ≤ sz) :
    ∀ fuel (input : List Char), input.length ≤ fuel →
      (∀ c ∈ input, IsHexDigit c) → input.length % (2 * sz) = 0 →
      ∃ vs, unhexLoop sz fuel input = Except.ok vs := by
  intro fuel
  induction fuel with
  | zero =>
    intro input hlen _ _
    match input with
    | [] => exact ⟨[], rfl⟩
    | c :: cs => simp at hlen
  | succ fuel IH =>
    intro input hlen hhex hmod
    match input with
    | [] => exact ⟨[], rfl⟩
    | c :: cs =>
      have hlen2 : 2 * sz ≤ (c :: cs).length := by
        rcases Nat.eq_zero_or_pos ((c :: cs).length / (2 * sz)) with h0 | hpos
        · have := Nat.div_add_mod (c :: cs).length (2 * sz)
          rw [h0, hmod] at this
          simp at this
        · have := Nat.div_add_mod (c :: cs).length (2 * sz)
          have h2 : 2 * sz * 1 ≤ 2 * sz * ((c :: cs).length / (2 * sz)) :=
            Nat.mul_le_mul_left _ hpos
          omega
      obtain ⟨v, hv⟩ := decodeOne_ok_of_hex (2 * sz) 0 (c :: cs)
        (fun c' hc' => hhex c' (List.take_subset _ _ hc')) hlen2
      obtain ⟨vs, hvs⟩ := IH ((c :: cs).drop (2 * sz))
        (by rw [List.length_drop]; simp only [List.length_cons] at hlen ⊢; omega)
        (fun c' hc' => hhex c' (List.drop_subset _ _ hc'))
        (by
          rw [List.length_drop]
          have hdvd : (2 * sz) ∣ (c :: cs).length := Nat.dvd_of_mod_eq_zero hmod
          have hdvd2 : (2 * sz) ∣ ((c :: cs).length - 2 * sz) := Nat.dvd_sub' hdvd dvd_rfl
          exact Nat.mod_eq_zero_of_dvd hdvd2)
      refine ⟨v :: vs, ?_⟩
      unfold unhexLoop
      rw [hv]
      show (match unhexLoop sz fuel ((c :: cs).drop (2 * sz)) with
        | Except.error e => Except.error e
        | Except.ok vs => (Except.ok (v :: vs) : Except HexError (List Nat))) =
          Except.ok (v :: vs)
      rw [hvs]

/-- Error analysis of the `unhex` loop. -/
theorem unhexLoop_error (sz : Nat) (_hsz : 1 ≤ sz) :
    ∀ fuel (input : List Char) (e : HexError),
      unhexLoop sz fuel input = Except.error e →
      (e = HexError.nonHexInput → ∃ c ∈ input, ¬ IsHexDigit c) ∧
      (e = HexError.notEnoughInput → input.length % (2 * sz) ≠ 0) := by
  intro fuel
  induction fuel with
  | zero =>
    intro input e h
    match input with
    | [] => cases h
    | c :: cs => cases h
  | succ fuel IH =>
    intro input e h
    match input with
    | [] => cases h
    | c :: cs =>
      unfold unhexLoop at h
      match hd : decodeOne (2 * sz) 0 (c :: cs) with
      | Except.error e' =>
        rw [hd] at h
        cases h
        obtain ⟨h1, h2⟩ := decodeOne_error (2 * sz) 0 (c :: cs) e hd
        refine ⟨h2, fun he => ?_⟩
        have hshort := h1 he
        intro hmod
        rcases Nat.eq_zero_or_pos ((c :: cs).length / (2 * sz)) with h0 | hpos
        · have := Nat.div_add_mod (c :: cs).length (2 * sz)
          rw [h0, hmod] at this
          simp at this
        · have := Nat.div_add_mod (c :: cs).length (2 * sz)
          have hx : 2 * sz * 1 ≤ 2 * sz * ((c :: cs).length / (2 * sz)) :=
            Nat.mul_le_mul_left _ hpos
          omega
      | Except.ok vr =>
        obtain ⟨v1, rest2⟩ := vr
        rw [hd] at h
        have h2 : (match unhexLoop sz fuel rest2 with
          | Except.error e => Except.error e
          | Except.ok vs => (Except.ok (v1 :: vs) : Except HexError (List Nat))) =
            Except.error e := h
        obtain ⟨hrest, hlen2⟩ := decodeOne_ok_drop (2 * sz) 0 (c :: cs) v1 rest2 hd
        match hrec : unhexLoop sz fuel rest2 with
        | Except.error e' =>
          rw [hrec] at h2
          cases h2
          obtain ⟨h1, h2⟩ := IH rest2 _ hrec
          refine ⟨fun he => ?_, fun he => ?_⟩
          · obtain ⟨c', hc1, hc2⟩ := h1 he
            rw [hrest] at hc1
            exact ⟨c', List.drop_subset _ _ hc1, hc2⟩
          · have h3 := h2 he
            rw [hrest, List.length_drop] at h3
            intro hmod
            apply h3
            have hdvd : (2 * sz) ∣ (c :: cs).length := Nat.dvd_of_mod_eq_zero hmod
            have hdvd2 : (2 * sz) ∣ ((c :: cs).length - 2 * sz) :=
              Nat.dvd_sub' hdvd dvd_rfl
            exact Nat.mod_eq_zero_of_dvd hdvd2
        | Except.ok vs =>
          rw [hrec] at h2
          cases h2

/-- A character outside the three hex-digit ranges makes `hex_char_to_int`
throw `non_hex_input`. -/
theorem hexCharToInt_not_hex (c : Char) (h : ¬ IsHexDigit c) :
    hexCharToInt c = Except.error HexError.nonHexInput := by
  unfold IsHexDigit at h
  unfold hexCharToInt
  rw [if_neg (fun h1 => h (Or.inl h1)), if_neg (fun h2 => h (Or.inr (Or.inl h2))),
    if_neg (fun h3 => h (Or.inr (Or.inr h3)))]

/-- A non-hex character within the unit being decoded makes `decode_one`
throw `non_hex_input`: the characters are converted left to right, so the
digit conversion reaches the bad character before the unit ends. -/
theorem decodeOne_error_of_bad :
    ∀ (numChars res : Nat) (input : List Char),
      (∃ c ∈ input.take numChars, ¬ IsHexDigit c) →
      decodeOne numChars res input = Except.error HexError.nonHexInput := by
  intro numChars
  induction numChars with
  | zero =>
    intro res input h
    simp at h
  | succ n IH =>
    intro res input h
    match input with
    | [] => simp at h
    | c :: cs =>
      by_cases hc : IsHexDigit c
      · obtain ⟨d, hd⟩ := (hexCharToInt_ok_iff c).2 hc
        have hbad : ∃ x ∈ cs.take n, ¬ IsHexDigit x := by
          obtain ⟨x, hx1, hx2⟩ := h
          rw [List.take_succ_cons] at hx1
          rcases List.mem_cons.1 hx1 with hxc | hxm
          · subst hxc
            exact absurd hc hx2
          · exact ⟨x, hxm, hx2⟩
        unfold decodeOne
        rw [hd]
        exact IH _ _ hbad
      · unfold decodeOne
        rw [hexCharToInt_not_hex c hc]

/-- All-hex input shorter than the decode unit makes `decode_one` hit the
`first == last` check and throw `not_enough_input`. -/
theorem decodeOne_error_of_short :
    ∀ (numChars res : Nat) (input : List Char),
      (∀ c ∈ input, IsHexDigit c) → input.length < numChars →
      decodeOne numChars res input = Except.error HexError.notEnoughInput := by
  intro numChars
  induction numChars with
  | zero =>
    intro res input _ hlen
    omega
  | succ n IH =>
    intro res input hhex hlen
    match input with
    | [] => rfl
    | c :: cs =>
      have hc : IsHexDigit c := hhex c (by simp)
      obtain ⟨d, hd⟩ := (hexCharToInt_ok_iff c).2 hc
      unfold decodeOne
      rw [hd]
      exact IH _ _ (fun x hx => hhex x (by simp [hx]))
        (by simp only [List.length_cons] at hlen; omega)

/-- If the input holds a non-hex character, the `unhex` loop fails with
`non_hex_input`: the scan is strictly left to right, so the bad character is
converted before the end of the input can be reached. -/
theorem unhexLoop_bad (sz : Nat) (hsz : 1 ≤ sz) :
    ∀ fuel (input : List Char), input.length ≤ fuel →
      (∃ c ∈ input, ¬ IsHexDigit c) →
      unhexLoop sz fuel input = Except.error HexError.nonHexInput := by
  intro fuel
  induction fuel with
  | zero =>
    intro input hlen hbad
    match input with
    | [] => simp at hbad
    | c :: cs => simp at hlen
  | succ fuel IH =>
    intro input hlen hbad
    match input with
    | [] => simp at hbad
    | c :: cs =>
      by_cases hall : ∀ x ∈ (c :: cs).take (2 * sz), IsHexDigit x
      · have hlen2 : 2 * sz ≤ (c :: cs).length := by
          by_contra hcon
          obtain ⟨x, hx1, hx2⟩ := hbad
          exact hx2 (hall x (by rw [List.take_of_length_le (by omega)]; exact hx1))
        obtain ⟨v, hv⟩ := decodeOne_ok_of_hex (2 * sz) 0 (c :: cs) hall hlen2
        have hbad2 : ∃ x ∈ (c :: cs).drop (2 * sz), ¬ IsHexDigit x := by
          obtain ⟨x, hx1, hx2⟩ := hbad
          rw [← List.take_append_drop (2 * sz) (c :: cs)] at hx1
          rcases List.mem_append.1 hx1 with hxt | hxd
          · exact absurd (hall x hxt) hx2
          · exact ⟨x, hxd, hx2⟩
        have hrec := IH ((c :: cs).drop (2 * sz))
          (by rw [List.length_drop]; simp only [List.length_cons] at hlen ⊢; omega)
          hbad2
        unfold unhexLoop
        rw [hv]
        show (match unhexLoop sz fuel ((c :: cs).drop (2 * sz)) with
          | Except.error e => Except.error e
          | Except.ok vs => (Except.ok (v :: vs) : Except HexError (List Nat))) =
            Except.error HexError.nonHexInput
        rw [hrec]
      · push_neg at hall
        obtain ⟨x, hx1, hx2⟩ := hall
        have hdec := decodeOne_error_of_bad (2 * sz) 0 (c :: cs) ⟨x, hx1, hx2⟩
        unfold unhexLoop
        rw [hdec]

/-- If the input is all hex but its length is not a multiple of the decode
unit, the `unhex` loop fails with `not_enough_input` on the truncated final
unit. -/
theorem unhexLoop_short (sz : Nat) (hsz : 1 ≤ sz) :
    ∀ fuel (input : List Char), input.length ≤ fuel →
      (∀ c ∈ input, IsHexDigit c) → input.length % (2 * sz) ≠ 0 →
      unhexLoop sz fuel input = Except.error HexError.notEnoughInput := by
  intro fuel
  induction fuel with
  | zero =>
    intro input hlen hhex hmod
    match input with
    | [] => simp at hmod
    | c :: cs => simp at hlen
  | succ fuel IH =>
    intro input hlen hhex hmod
    match input with
    | [] => simp at hmod
    | c :: cs =>
      by_cases hlen2 : 2 * sz ≤ (c :: cs).length
      · obtain ⟨v, hv⟩ := decodeOne_ok_of_hex (2 * sz) 0 (c :: cs)
          (fun x hx => hhex x (List.take_subset _ _ hx)) hlen2
        have hrec := IH ((c :: cs).drop (2 * sz))
          (by rw [List.length_drop]; simp only [List.length_cons] at hlen ⊢; omega)
          (fun x hx => hhex x (List.drop_subset _ _ hx))
          (by
            rw [List.length_drop]
            intro hcon
            apply hmod
            rw [show (c :: cs).length = (c :: cs).length - 2 * sz + 2 * sz by omega,
              Nat.add_mod_right]
            exact hcon)
        unfold unhexLoop
        rw [hv]
        show (match unhexLoop sz fuel ((c :: cs).drop (2 * sz)) with
          | Except.error e => Except.error e
          | Except.ok vs => (Except.ok (v :: vs) : Except HexError (List Nat))) =
            Except.error HexError.notEnoughInput
        rw [hrec]
      · have hdec := decodeOne_error_of_short (2 * sz) 0 (c :: cs) hhex (by omega)
        unfold unhexLoop
        rw [hdec]

/-! ## The claims -/

/-- C1: for every pattern and corpus over the same symbol type,
`boyer_moore_search`, `boyer_moore_horspool_search` and
`knuth_morris_pratt_search` all return the same result as the naive
brute-force reference scan — the leftmost position where the corpus contains
the pattern, or the one-past-the-end sentinel `corpus.length`. -/
theorem claim_searches_agree_with_naive (pat corpus : List α) :
    bmSearch pat corpus = some (naiveSearch corpus pat) ∧
    bmhSearch pat corpus = some (naiveSearch corpus pat) ∧
    kmpSearch pat corpus = some (naiveSearch corpus pat) :=
  ⟨bmSearch_eq_naive pat corpus, bmhSearch_eq_naive pat corpus,
    kmpSearch_eq_naive pat corpus⟩

/-- C2: in the Boyer-Moore search loop, on a mismatch at pattern index `j`
(the source's `j - 1`) against corpus symbol `c`, with `k = badchar[c]` and
`m_shift = (j+1) - k - 1`, the alignment advances by
`max m_shift suffix[j+1]` exactly when `k < j+1` and `m_shift > suffix[j+1]`,
and otherwise advances by `suffix[j+1]`. -/
theorem claim_bm_mismatch_shift (pat corpus : List α) (skip : SkipTableMap α)
    (suffix : List Nat) (lastPos fuel pos j : Nat) (c : α)
    (hpos : pos ≤ lastPos)
    (hin : bmInner pat corpus pos pat.length = some (j+1))
    (hc : corpus[pos + j]? = some c) :
    bmLoop pat corpus skip suffix lastPos (fuel+1) pos =
      bmLoop pat corpus skip suffix lastPos fuel (pos +
        (if skip.find c < ((j+1 : Nat) : Int) ∧
            (suffix.getD (j+1) 0 : Int) < ((j+1 : Nat) : Int) - skip.find c - 1 then
          (max (((j+1 : Nat) : Int) - skip.find c - 1) (suffix.getD (j+1) 0 : Int)).toNat
        else suffix.getD (j+1) 0)) := by
  rw [bmLoop_succ, if_pos hpos, hin]
  show (match corpus[pos + j]? with
    | none => none
    | some c =>
      if skip.find c < ((j+1 : Nat) : Int) ∧
          (suffix.getD (j+1) 0 : Int) < ((j+1 : Nat) : Int) - skip.find c - 1 then
        bmLoop pat corpus skip suffix lastPos fuel
          (pos + (((j+1 : Nat) : Int) - skip.find c - 1).toNat)
      else bmLoop pat corpus skip suffix lastPos fuel
        (pos + suffix.getD (j+1) 0)) = _
  rw [hc]
  show (if skip.find c < ((j+1 : Nat) : Int) ∧
        (suffix.getD (j+1) 0 : Int) < ((j+1 : Nat) : Int) - skip.find c - 1 then
      bmLoop pat corpus skip suffix lastPos fuel
        (pos + (((j+1 : Nat) : Int) - skip.find c - 1).toNat)
    else bmLoop pat corpus skip suffix lastPos fuel (pos + suffix.getD (j+1) 0)) = _
  by_cases hbr : skip.find c < ((j+1 : Nat) : Int) ∧
      (suffix.getD (j+1) 0 : Int) < ((j+1 : Nat) : Int) - skip.find c - 1
  · rw [if_pos hbr, if_pos hbr, max_eq_left (le_of_lt hbr.2)]
  · rw [if_neg hbr, if_neg hbr]

/-- Witness for C2 at pattern `[0,1]`, corpus `[1,1]`: the first window
mismatches at pattern index 0 and the loop advances the alignment by the
claimed combined shift (here the good-suffix shift 2). -/
theorem claim_bm_mismatch_shift_witness :
    bmLoop ([0,1] : List Nat) [1,1] (buildBmSkip [0,1]) (createSuffixTable [0,1]) 0 2 0 =
      bmLoop ([0,1] : List Nat) [1,1] (buildBmSkip [0,1]) (createSuffixTable [0,1]) 0 1 2 := by
  have h := claim_bm_mismatch_shift ([0,1] : List Nat) [1,1] (buildBmSkip [0,1])
    (createSuffixTable [0,1]) 0 1 0 0 1 (by decide) (by decide) (by decide)
  rw [h]
  rfl

/-- C3: the KMP failure table has length `m + 1`, entry 0 is `-1`, and for
`1 ≤ i ≤ m` entry `i` is the length of the longest proper prefix of the
pattern's first `i` symbols that is also a suffix of them. -/
theorem claim_kmp_failure_table (pat : List α) :
    (initSkipTable pat).length = pat.length + 1 ∧
    (initSkipTable pat).getD 0 0 = -1 ∧
    ∀ i, 1 ≤ i → i ≤ pat.length →
      (initSkipTable pat).getD i 0 = (maxBorder (pat.take i) : Int) :=
  initSkipTable_facts pat

/-- Witness for C3 at pattern `[0,1,0,0]`, entry 3. -/
theorem claim_kmp_failure_table_witness :
    (initSkipTable ([0,1,0,0] : List Nat)).getD 3 0 =
      (maxBorder (([0,1,0,0] : List Nat).take 3) : Int) :=
  (claim_kmp_failure_table ([0,1,0,0] : List Nat)).2.2 3 (by decide) (by decide)

/-- C4 counterexample: for the pattern `[0,1]` the symbol `1` is present in
the pattern with distance-from-end `0`, yet the Horspool table's lookup
returns the default `2` (the table was built over all but the last symbol),
and `1` is not in the table's domain — so the claimed invariant (stored
value = distance-from-end for every pattern symbol, domain = all distinct
pattern symbols) fails as stated. -/
theorem claim_bad_char_tables_counterexample :
    ¬ (∀ c, c ∈ ([0,1] : List Nat) →
        (buildHorspoolSkip ([0,1] : List Nat)).find c =
          ((([0,1] : List Nat).length - 1 - rightmostOcc ([0,1] : List Nat) c : Nat) : Int) ∧
        c ∈ (buildHorspoolSkip ([0,1] : List Nat)).keys) := by
  intro h
  have h1 := (h 1 (by decide)).1
  revert h1
  decide

/-- C4 amended: the Boyer-Moore table stores, for every pattern symbol, its
rightmost occurrence offset, its domain is exactly the pattern's distinct
symbols and outside lookups give `-1`; the Horspool table stores, for every
symbol occurring among the first `m - 1` pattern positions, the
distance-from-end `m - 1 - i` of its rightmost occurrence `i` among those
positions, its domain is exactly the distinct symbols of those positions,
and outside lookups give the default `m`. -/
theorem claim_bad_char_tables_amended (pat : List α) :
    (∀ c, c ∈ pat → (buildBmSkip pat).find c = ((rightmostOcc pat c : Nat) : Int)) ∧
    (∀ c, c ∈ (buildBmSkip pat).keys ↔ c ∈ pat) ∧
    (∀ c, c ∉ pat → (buildBmSkip pat).find c = -1) ∧
    (∀ c, c ∈ pat.take (pat.length - 1) →
      (buildHorspoolSkip pat).find c =
        ((pat.length - 1 - rightmostOcc (pat.take (pat.length - 1)) c : Nat) : Int)) ∧
    (∀ c, c ∈ (buildHorspoolSkip pat).keys ↔ c ∈ pat.take (pat.length - 1)) ∧
    (∀ c, c ∉ pat.take (pat.length - 1) →
      (buildHorspoolSkip pat).find c = (pat.length : Int)) := by
  refine ⟨?_, ?_, ?_, ?_, ?_, ?_⟩
  · intro c hc
    rw [buildBmSkip_find, if_pos hc]
  · intro c
    rw [buildBmSkip_eq]
    exact skipBuild_mem_keys _ _ _ _
  · intro c hc
    rw [buildBmSkip_find, if_neg hc]
  · intro c hc
    rw [buildHorspoolSkip_eq]
    obtain ⟨idx, h1, h2, h3, h4⟩ := skipBuild_find_mem _ _ _ _ hc
    rw [h4, rightmostOcc_eq h2 h3]
  · intro c
    rw [buildHorspoolSkip_eq]
    exact skipBuild_mem_keys _ _ _ _
  · intro c hc
    rw [buildHorspoolSkip_eq]
    exact skipBuild_find_not_mem _ _ _ _ hc

/-- Witness for the amended C4 at pattern `[0,1,0]`. -/
theorem claim_bad_char_tables_amended_witness :
    (buildBmSkip ([0,1,0] : List Nat)).find 0 =
      ((rightmostOcc ([0,1,0] : List Nat) 0 : Nat) : Int) ∧
    (buildHorspoolSkip ([0,1,0] : List Nat)).find 1 =
      ((([0,1,0] : List Nat).length - 1 -
        rightmostOcc (([0,1,0] : List Nat).take 2) 1 : Nat) : Int) := by
  obtain ⟨h1, -, -, h4, -, -⟩ := claim_bad_char_tables_amended ([0,1,0] : List Nat)
  exact ⟨h1 0 (by decide), h4 1 (by decide)⟩

/-- C5: every search over a finite corpus terminates — each mismatch
iteration advances the alignment by at least one, so the loops reach their
result within a corpus-length fuel bound (any larger fuel gives the same
result), and all the shift quantities are at least 1: every used good-suffix
entry, every Horspool lookup, and the KMP advance `idx - failure[idx]`. -/
theorem claim_search_terminates (pat corpus : List α) :
    (∀ fuel, corpus.length + 1 ≤ fuel → 1 ≤ pat.length → pat.length ≤ corpus.length →
      bmLoop pat corpus (buildBmSkip pat) (createSuffixTable pat)
          (corpus.length - pat.length) fuel 0 =
        bmLoop pat corpus (buildBmSkip pat) (createSuffixTable pat)
          (corpus.length - pat.length) (corpus.length + 1) 0 ∧
      bmhLoop pat corpus (buildHorspoolSkip pat) (corpus.length - pat.length) fuel 0 =
        bmhLoop pat corpus (buildHorspoolSkip pat) (corpus.length - pat.length)
          (corpus.length + 1) 0 ∧
      kmpLoop pat corpus (initSkipTable pat) (corpus.length - pat.length) fuel 0 0 =
        kmpLoop pat corpus (initSkipTable pat) (corpus.length - pat.length)
          (corpus.length + 1) 0 0) ∧
    (1 ≤ pat.length → ∀ j, 1 ≤ j → j ≤ pat.length →
      1 ≤ (createSuffixTable pat).getD j 0) ∧
    (1 ≤ pat.length → ∀ c, 1 ≤ (buildHorspoolSkip pat).find c) ∧
    (∀ idx, idx < pat.length →
      1 ≤ ((idx : Int) - (initSkipTable pat).getD idx 0).toNat) := by
  refine ⟨?_, ?_, ?_, ?_⟩
  · intro fuel hfuel hm hmn
    refine ⟨?_, ?_, ?_⟩
    · rw [bmLoop_eq_naive hm hmn fuel 0 (by omega) (by omega)
        (fun q hq => absurd hq (by omega)),
        bmLoop_eq_naive hm hmn (corpus.length + 1) 0 (by omega) (by omega)
        (fun q hq => absurd hq (by omega))]
    · rw [bmhLoop_eq_naive hm hmn fuel 0 (by omega) (by omega)
        (fun q hq => absurd hq (by omega)),
        bmhLoop_eq_naive hm hmn (corpus.length + 1) 0 (by omega) (by omega)
        (fun q hq => absurd hq (by omega))]
    · rw [kmpLoop_eq_naive hm hmn fuel 0 0 (by omega) (by omega) (by omega)
        (fun t ht => absurd ht (by omega)) (fun q hq => absurd hq (by omega)),
        kmpLoop_eq_naive hm hmn (corpus.length + 1) 0 0 (by omega) (by omega) (by omega)
        (fun t ht => absurd ht (by omega)) (fun q hq => absurd hq (by omega))]
  · intro hm j h1 h2
    exact createSuffixTable_pos pat hm j h2
  · intro hm c
    exact buildHorspoolSkip_pos pat hm c
  · intro idx hidx
    obtain ⟨-, h0, hi⟩ := initSkipTable_facts pat
    rcases Nat.eq_zero_or_pos idx with hz | hpos
    · subst hz
      rw [h0]
      rfl
    · rw [hi idx hpos (by omega)]
      have := maxBorder_take_lt (p := pat) hpos (by omega)
      omega

/-- Witness for C5 at pattern `[0]`, corpus `[1,0]`. -/
theorem claim_search_terminates_witness :
    bmLoop ([0] : List Nat) [1,0] (buildBmSkip [0]) (createSuffixTable [0]) 1 5 0 =
      bmLoop ([0] : List Nat) [1,0] (buildBmSkip [0]) (createSuffixTable [0]) 1 3 0 ∧
    1 ≤ (createSuffixTable ([0] : List Nat)).getD 1 0 ∧
    1 ≤ (buildHorspoolSkip ([0] : List Nat)).find 7 ∧
    1 ≤ ((0 : Int) - (initSkipTable ([0] : List Nat)).getD 0 0).toNat := by
  obtain ⟨h1, h2, h3, h4⟩ := claim_search_terminates ([0] : List Nat) [1,0]
  exact ⟨(h1 5 (by decide) (by decide) (by decide)).1,
    h2 (by decide) 1 (by decide) (by decide), h3 (by decide) 7, h4 0 (by decide)⟩

/-- C6: an empty pattern matches at position 0 of any corpus, including the
empty corpus, for each of the three matchers.  (On the empty corpus the code
returns `corpus_last`, which is also position 0.) -/
theorem claim_empty_pattern_matches_at_zero (corpus : List α) :
    bmSearch ([] : List α) corpus = some 0 ∧
    bmhSearch ([] : List α) corpus = some 0 ∧
    kmpSearch ([] : List α) corpus = some 0 := by
  refine ⟨?_, ?_, ?_⟩
  · unfold bmSearch
    by_cases h : corpus.length = 0
    · rw [if_pos h, h]
    · rw [if_neg h, if_pos (show ([] : List α).length = 0 from rfl)]
  · unfold bmhSearch
    by_cases h : corpus.length = 0
    · rw [if_pos h, h]
    · rw [if_neg h, if_pos (show ([] : List α).length = 0 from rfl)]
  · unfold kmpSearch
    by_cases h : corpus.length = 0
    · rw [if_pos h, h]
    · rw [if_neg h, if_pos (show ([] : List α).length = 0 from rfl)]

/-- C7: when the pattern is longer than the corpus all three matchers report
not-found — the one-past-the-end sentinel `corpus.length` — and they do so
without examining any corpus symbol: the result is the same for every corpus
of that length. -/
theorem claim_long_pattern_not_found (pat corpus : List α)
    (h : corpus.length < pat.length) :
    bmSearch pat corpus = some corpus.length ∧
    bmhSearch pat corpus = some corpus.length ∧
    kmpSearch pat corpus = some corpus.length ∧
    ∀ corpus2 : List α, corpus2.length = corpus.length →
      bmSearch pat corpus = bmSearch pat corpus2 ∧
      bmhSearch pat corpus = bmhSearch pat corpus2 ∧
      kmpSearch pat corpus = kmpSearch pat corpus2 := by
  have hbm : ∀ cor : List α, cor.length < pat.length →
      bmSearch pat cor = some cor.length := by
    intro cor hcor
    unfold bmSearch
    by_cases hn : cor.length = 0
    · rw [if_pos hn]
    · rw [if_neg hn, if_neg (by omega), if_pos hcor]
  have hbmh : ∀ cor : List α, cor.length < pat.length →
      bmhSearch pat cor = some cor.length := by
    intro cor hcor
    unfold bmhSearch
    by_cases hn : cor.length = 0
    · rw [if_pos hn]
    · rw [if_neg hn, if_neg (by omega), if_pos hcor]
  have hkmp : ∀ cor : List α, cor.length < pat.length →
      kmpSearch pat cor = some cor.length := by
    intro cor hcor
    unfold kmpSearch
    by_cases hn : cor.length = 0
    · rw [if_pos hn]
    · rw [if_neg hn, if_neg (by omega), if_pos hcor]
  refine ⟨hbm corpus h, hbmh corpus h, hkmp corpus h, ?_⟩
  intro corpus2 hlen
  rw [hbm corpus h, hbm corpus2 (by omega), hbmh corpus h, hbmh corpus2 (by omega),
    hkmp corpus h, hkmp corpus2 (by omega), hlen]
  exact ⟨rfl, rfl, rfl⟩

/-- Witness for C7 at pattern `[0,0]`, corpus `[0]`. -/
theorem claim_long_pattern_not_found_witness :
    bmSearch ([0,0] : List Nat) [0] = some 1 ∧
    bmhSearch ([0,0] : List Nat) [0] = some 1 ∧
    kmpSearch ([0,0] : List Nat) [0] = some 1 := by
  obtain ⟨h1, h2, h3, -⟩ := claim_long_pattern_not_found ([0,0] : List Nat) [0] (by decide)
  exact ⟨h1, h2, h3⟩

/-- C8: for 1-byte symbols (`Fin 256`, the symbol's unsigned representation)
the dense-array skip table and the associative-map skip table are
observationally equivalent: built with the same default and the same
insertion sequence (later insertions for a symbol overwrite earlier ones),
every lookup returns the same integer. -/
theorem claim_skip_table_strategies_agree (d : Int) (ops : List (Fin 256 × Int))
    (s : Fin 256) :
    skipArrayFind (ops.foldl (fun a kv => skipArrayInsert a kv.1 kv.2) (skipArrayInit d)) s =
      (ops.foldl (fun t kv => t.insert kv.1 kv.2)
        (SkipTableMap.empty d : SkipTableMap (Fin 256))).find s := by
  refine skipTables_agree_aux ops (skipArrayInit d) (SkipTableMap.empty d) ?_ ?_ s
  · unfold skipArrayInit
    exact List.length_replicate ..
  · intro s'
    unfold skipArrayFind skipArrayInit SkipTableMap.empty SkipTableMap.find
    rw [List.getD_eq_getElem?_getD, List.getElem?_replicate, if_pos s'.isLt]
    rfl

/-- C9: `unhex` decoding fails in exactly two distinct ways — an input
holding a character that is not a hex digit raises `non_hex_input` (the
left-to-right scan converts the bad character before the end of the input
can be reached), and an all-hex input whose length is not a multiple of the
decode unit `2 * sizeof(T)` exhausts the input mid-unit and raises
`not_enough_input`; conversely each error implies its cause, and on all-hex
input whose length is a multiple of the unit size, no error is raised. -/
theorem claim_unhex_error_modes (sz : Nat) (hsz : 1 ≤ sz) (input : List Char) :
    HexError.nonHexInput ≠ HexError.notEnoughInput ∧
    ((∃ c ∈ input, ¬ IsHexDigit c) →
      unhex sz input = Except.error HexError.nonHexInput) ∧
    ((∀ c ∈ input, IsHexDigit c) → input.length % (2 * sz) ≠ 0 →
      unhex sz input = Except.error HexError.notEnoughInput) ∧
    ((∀ c ∈ input, IsHexDigit c) → input.length % (2 * sz) = 0 →
      ∃ vs, unhex sz input = Except.ok vs) ∧
    (∀ e, unhex sz input = Except.error e →
      (e = HexError.nonHexInput → ∃ c ∈ input, ¬ IsHexDigit c) ∧
      (e = HexError.notEnoughInput → input.length % (2 * sz) ≠ 0)) := by
  refine ⟨?_, ?_, ?_, ?_, ?_⟩
  · intro hcon
    exact nomatch hcon
  · intro hbad
    exact unhexLoop_bad sz hsz input.length input le_rfl hbad
  · intro hhex hmod
    exact unhexLoop_short sz hsz input.length input le_rfl hhex hmod
  · intro h1 h2
    exact unhexLoop_ok sz hsz input.length input le_rfl h1 h2
  · intro e he
    exact unhexLoop_error sz hsz input.length input e he

/-- Witness for C9: the input `"0x"` fails with `non_hex_input`, the
truncated all-hex input `"0"` fails with `not_enough_input`, and the
two-digit input `"0f"` decodes successfully. -/
theorem claim_unhex_error_modes_witness :
    unhex 1 ['0', 'x'] = Except.error HexError.nonHexInput ∧
    unhex 1 ['0'] = Except.error HexError.notEnoughInput ∧
    ∃ vs, unhex 1 ['0', 'f'] = Except.ok vs := by
  obtain ⟨-, hA, -, -, -⟩ := claim_unhex_error_modes 1 (by omega) ['0', 'x']
  obtain ⟨-, -, hB, -, -⟩ := claim_unhex_error_modes 1 (by omega) ['0']
  obtain ⟨-, -, -, hC, -⟩ := claim_unhex_error_modes 1 (by omega) ['0', 'f']
  exact ⟨hA (by decide), hB (by decide) (by decide), hC (by decide) (by decide)⟩

/-- C10: each search only reads pattern indices in `[0, m)` and corpus
indices in `[0, n)`: all symbol reads in this embedding are `Option`-checked
and an out-of-bounds read aborts the whole search with `none`, which never
happens. -/
theorem claim_no_out_of_bounds_reads (pat corpus : List α) :
    bmSearch pat corpus ≠ none ∧ bmhSearch pat corpus ≠ none ∧
    kmpSearch pat corpus ≠ none := by
  refine ⟨?_, ?_, ?_⟩
  · rw [bmSearch_eq_naive]
    exact Option.some_ne_none _
  · rw [bmhSearch_eq_naive]
    exact Option.some_ne_none _
  · rw [kmpSearch_eq_naive]
    exact Option.some_ne_none _

end BoostAlgo
